import Mathlib

/-! Chained hash table (`hashtables.c`).

A shallow embedding of the string-to-string hash table of `hashtables.c`
(djb2 hash, separate chaining, explicit doubling), followed by theorems about it.

Conventions of the embedding:

* a `char *` argument is a `CString`: the bytes in front of the terminating NUL;
* a bucket chain (a `LinkedPair *` with its `next` links) is a `List LinkedPair`,
  `NULL` being `[]`;
* a `HashTable *` is passed as a value and a mutating function returns the state of the
  table after the call;
* behaviour the C standard leaves undefined (division by zero, indexing outside the
  storage array, signed overflow) is a `Fault`;
* `unsigned long` is 64 bits wide, `int` and `unsigned int` are 32 bits wide;
* allocation never fails.
-/

namespace HashTables

/-! ## Machine integers -/

/-- Largest value of `int`. -/
def INT_MAX : Int := 2 ^ 31 - 1

/-- Smallest value of `int`. -/
def INT_MIN : Int := -(2 ^ 31)

/-- Number of values of `unsigned long`. -/
def ULONG_SIZE : Nat := 2 ^ 64

/-- Number of values of `unsigned int`. -/
def UINT_SIZE : Nat := 2 ^ 32

/-- Conversion of an `int` to `unsigned long` (reduction modulo `2 ^ 64`). -/
def to_ulong (n : Int) : Nat := (n % (ULONG_SIZE : Int)).toNat

/-- Undefined behaviour reached by the C code. -/
inductive Fault where
  | divByZero
  | outOfBounds
  | intOverflow
  deriving DecidableEq, Repr

/-! ## Strings -/

/-- A C string: the bytes before the terminating NUL, each a nonzero `unsigned char`. -/
structure CString where
  bytes : List Nat
  valid : ∀ b ∈ bytes, 0 < b ∧ b < 256

instance : DecidableEq CString := fun a b =>
  decidable_of_iff (a.bytes = b.bytes)
    ⟨fun h => by cases a; cases b; cases h; rfl, fun h => by rw [h]⟩

/-- Byte-wise comparison of two NUL-terminated buffers; the end of a list is the NUL. -/
def strcmp_bytes : List Nat → List Nat → Int
  | [], [] => 0
  | [], b :: _ => 0 - (b : Int)
  | a :: _, [] => (a : Int) - 0
  | a :: s1, b :: s2 => if a = b then strcmp_bytes s1 s2 else (a : Int) - (b : Int)

/-- The library function `strcmp`: zero exactly when the two strings agree up to their NUL. -/
def strcmp (s1 s2 : CString) : Int := strcmp_bytes s1.bytes s2.bytes

/-- The library function `strdup`: a fresh copy of the string. -/
def strdup (s : CString) : CString := s

/-! ## Pairs -/

/-- A node of a bucket chain; the `next` pointer is the tail of the list holding the node. -/
structure LinkedPair where
  key : CString
  value : CString
  deriving DecidableEq

/-- Embedding of `create_pair`: the node owns copies of both strings (`next` is `NULL`). -/
def create_pair (key value : CString) : LinkedPair :=
  { key := strdup key, value := strdup value }

/-- Embedding of `HashTable`. -/
structure HashTable where
  capacity : Int
  storage : List (List LinkedPair)
  deriving DecidableEq

/-! ## The hash function -/

/-- The body of the loop of `hash`: `((hash << 5) + hash) + c` on `unsigned long`, every
operation reduced modulo `2 ^ 64`. -/
def hash_step (h c : Nat) : Nat :=
  (((h <<< 5) % ULONG_SIZE + h) % ULONG_SIZE + c) % ULONG_SIZE

/-- The loop of `hash`: `while ((c = *u_str++)) hash = ((hash << 5) + hash) + c;`
on `unsigned long`. -/
def hash_loop : List Nat → Nat → Nat
  | [], h => h
  | c :: u_str, h => if c = 0 then h else hash_loop u_str (hash_step h c)

/-- Embedding of `hash`: `hash % max` is computed on `unsigned long` and the result is
converted to `unsigned int`. -/
def hash (str : CString) (max : Int) : Except Fault Nat :=
  if to_ulong max = 0 then .error .divByZero
  else .ok ((hash_loop str.bytes 5381 % to_ulong max) % UINT_SIZE)

/-! ## Table operations -/

/-- Embedding of `create_hash_table`. `calloc` yields `capacity` empty buckets; for a
capacity that is not positive there is no bucket at all. -/
def create_hash_table (capacity : Int) : HashTable :=
  { capacity := capacity, storage := List.replicate capacity.toNat [] }

/-- The search loop shared by `hash_table_remove` and `hash_table_retrieve`: the nodes
stepped over (the last of them is `pair_previous`) and the chain from `pair_current` on. -/
def scan (key : CString) : List LinkedPair → List LinkedPair × List LinkedPair
  | [] => ([], [])
  | pair_current :: next =>
    if strcmp pair_current.key key = 0 then ([], pair_current :: next)
    else (pair_current :: (scan key next).1, (scan key next).2)

/-- Embedding of `hash_table_remove`. -/
def hash_table_remove (ht : HashTable) (key : CString) : Except Fault HashTable :=
  match hash key ht.capacity with
  | .error e => .error e
  | .ok hash_index =>
    match ht.storage[hash_index]? with
    | none => .error .outOfBounds
    | some chain =>
      match scan key chain with
      | (_, []) => .ok ht
      | ([], _ :: next) =>
        .ok { ht with storage := ht.storage.set hash_index next }
      | (first :: others, _ :: next) =>
        .ok { ht with storage := ht.storage.set hash_index ((first :: others) ++ next) }

/-- Embedding of `hash_table_insert`. -/
def hash_table_insert (ht : HashTable) (key value : CString) : Except Fault HashTable :=
  match hash_table_remove ht key with
  | .error e => .error e
  | .ok ht1 =>
    match hash key ht1.capacity with
    | .error e => .error e
    | .ok hash_index =>
      match ht1.storage[hash_index]? with
      | none => .error .outOfBounds
      | some pair_old =>
        .ok { ht1 with storage := ht1.storage.set hash_index (create_pair key value :: pair_old) }

/-- Embedding of `hash_table_retrieve`; `none` is the `NULL` result. -/
def hash_table_retrieve (ht : HashTable) (key : CString) : Except Fault (Option CString) :=
  match hash key ht.capacity with
  | .error e => .error e
  | .ok hash_index =>
    match ht.storage[hash_index]? with
    | none => .error .outOfBounds
    | some chain =>
      match (scan key chain).2 with
      | [] => .ok none
      | pair_current :: _ => .ok (some pair_current.value)

/-- The inner loop of `hash_table_resize`: every node of one chain is inserted into the
new table, head first. -/
def reinsert_chain (new_ht : HashTable) : List LinkedPair → Except Fault HashTable
  | [] => .ok new_ht
  | pair_current :: pair_next =>
    match hash_table_insert new_ht pair_current.key pair_current.value with
    | .error e => .error e
    | .ok new_ht1 => reinsert_chain new_ht1 pair_next

/-- The outer loop of `hash_table_resize`, with `n` iterations left to run from `index`. -/
def resize_loop (ht : HashTable) : Nat → Nat → HashTable → Except Fault HashTable
  | 0, _, new_ht => .ok new_ht
  | n + 1, index, new_ht =>
    match ht.storage[index]? with
    | none => .error .outOfBounds
    | some chain =>
      match reinsert_chain new_ht chain with
      | .error e => .error e
      | .ok new_ht1 => resize_loop ht n (index + 1) new_ht1

/-- Embedding of `hash_table_resize`. The result is the state of the argument table after
the call (the code only reads it) together with the table returned. -/
def hash_table_resize (ht : HashTable) : Except Fault (HashTable × HashTable) :=
  if ht.capacity * 2 < INT_MIN ∨ INT_MAX < ht.capacity * 2 then .error .intOverflow
  else
    match resize_loop ht ht.capacity.toNat 0 (create_hash_table (ht.capacity * 2)) with
    | .error e => .error e
    | .ok new_ht => .ok (ht, new_ht)

/-! ## The demonstration of `main` -/

/-- The key `"line_1"`. -/
def line_1 : CString := ⟨[108, 105, 110, 101, 95, 49], by decide⟩

/-- The key `"line_2"`. -/
def line_2 : CString := ⟨[108, 105, 110, 101, 95, 50], by decide⟩

/-- The key `"line_3"`. -/
def line_3 : CString := ⟨[108, 105, 110, 101, 95, 51], by decide⟩

/-- The value `"Tiny hash table\n"`. -/
def value_1 : CString :=
  ⟨[84, 105, 110, 121, 32, 104, 97, 115, 104, 32, 116, 97, 98, 108, 101, 10], by decide⟩

/-- The value `"Filled beyond capacity\n"`. -/
def value_2 : CString :=
  ⟨[70, 105, 108, 108, 101, 100, 32, 98, 101, 121, 111, 110, 100, 32, 99, 97, 112, 97, 99,
    105, 116, 121, 10], by decide⟩

/-- The value `"Linked list saves the day!\n"`. -/
def value_3 : CString :=
  ⟨[76, 105, 110, 107, 101, 100, 32, 108, 105, 115, 116, 32, 115, 97, 118, 101, 115, 32, 116,
    104, 101, 32, 100, 97, 121, 33, 10], by decide⟩

/-- The table of `main` after its three insertions: `"line_2"` alone in bucket 0,
`"line_3"` in front of `"line_1"` in bucket 1. -/
def demo_table : HashTable :=
  { capacity := 2,
    storage := [[⟨line_2, value_2⟩], [⟨line_3, value_3⟩, ⟨line_1, value_1⟩]] }

/-! ## Vocabulary of the specification -/

/-- The first pair of a chain with the given key. -/
def first_match (key : CString) (chain : List LinkedPair) : Option LinkedPair :=
  chain.find? (fun p => decide (p.key = key))

/-- A chain with its first pair of the given key erased. -/
def erase_first (key : CString) (chain : List LinkedPair) : List LinkedPair :=
  chain.eraseP (fun p => decide (p.key = key))

/-- The capacity is a positive `int` and the storage array has that many buckets. -/
def WellShaped (ht : HashTable) : Prop :=
  0 < ht.capacity ∧ ht.capacity ≤ INT_MAX ∧ (ht.storage.length : Int) = ht.capacity

/-- Within every bucket chain the keys are pairwise distinct. -/
def NoDuplicateKeys (ht : HashTable) : Prop :=
  ∀ chain ∈ ht.storage, (chain.map (fun p => p.key)).Nodup

/-- Every pair stored in bucket `i` has a key that hashes to `i` under the capacity. -/
def BucketPlacement (ht : HashTable) : Prop :=
  ∀ i chain, ht.storage[i]? = some chain → ∀ p ∈ chain, hash p.key ht.capacity = .ok i

/-- Number of pairs with the given key, over all buckets. -/
def count_key (ht : HashTable) (key : CString) : Nat :=
  (ht.storage.map (fun chain => chain.countP (fun p => decide (p.key = key)))).sum

/-- A sequence of calls of `hash_table_insert`, one per key/value pair, first pair first. -/
def insert_all (ht : HashTable) : List (CString × CString) → Except Fault HashTable
  | [] => .ok ht
  | kv :: rest =>
    match hash_table_insert ht kv.1 kv.2 with
    | .error e => .error e
    | .ok ht1 => insert_all ht1 rest

/-- The key and value of every node of a chain, in chain order. -/
def pairs_of (chain : List LinkedPair) : List (CString × CString) :=
  chain.map (fun p => (p.key, p.value))

/-- The value of the last pair with the given key in a sequence of key/value pairs. -/
def last_value (key : CString) : List (CString × CString) → Option CString
  | [] => none
  | kv :: rest =>
    match last_value key rest with
    | some v => some v
    | none => if kv.1 = key then some kv.2 else none

/-- The djb2 reference as the specification words it: starting from 5381, each byte
updates the accumulator to `accumulator * 33 + byte` modulo `2 ^ 64`; the result is the
accumulator modulo the modulus. -/
def djb2_spec (key : CString) (modulus : Nat) : Nat :=
  key.bytes.foldl (fun accumulator byte => (accumulator * 33 + byte) % 2 ^ 64) 5381 % modulus

/-- Tables obtained from `create_hash_table c` by calls of `hash_table_insert` and
`hash_table_remove` that return. -/
inductive Built (c : Int) : HashTable → Prop
  | create : Built c (create_hash_table c)
  | insert (t t1 : HashTable) (k v : CString) :
      Built c t → hash_table_insert t k v = .ok t1 → Built c t1
  | remove (t t1 : HashTable) (k : CString) :
      Built c t → hash_table_remove t k = .ok t1 → Built c t1

/-- The keys of all pairs of the table, over all buckets, are pairwise distinct. -/
def DistinctKeys (ht : HashTable) : Prop :=
  (ht.storage.flatten.map (fun p => p.key)).Nodup

/-- The pair `a` stands before the pair `b` in the chain. -/
def Before (a b : LinkedPair) (chain : List LinkedPair) : Prop :=
  [a, b].Sublist chain

/-- The key hashes to bucket `j` under the capacity. -/
def lands_in (capacity : Int) (j : Nat) (key : CString) : Bool :=
  match hash key capacity with
  | .ok i => decide (i = j)
  | .error _ => false

/-- The chain that a sequence of insertions of distinct keys into an empty table leaves in
bucket `j`: the pairs whose key hashes to `j`, last inserted first. -/
def placed_chain (capacity : Int) (j : Nat) (kvs : List (CString × CString)) :
    List LinkedPair :=
  ((kvs.filter (fun kv => lands_in capacity j kv.1)).reverse).map
    (fun kv => create_pair kv.1 kv.2)

/-- A call of the table interface that changes the table. -/
inductive Op where
  | insert (key value : CString)
  | remove (key : CString)

/-- A sequence of calls of `hash_table_insert` and `hash_table_remove`, first call first. -/
def run_ops (ht : HashTable) : List Op → Except Fault HashTable
  | [] => .ok ht
  | Op.insert key value :: rest =>
    match hash_table_insert ht key value with
    | .error e => .error e
    | .ok ht1 => run_ops ht1 rest
  | Op.remove key :: rest =>
    match hash_table_remove ht key with
    | .error e => .error e
    | .ok ht1 => run_ops ht1 rest

/-- The reference association map of the specification: a key is bound to a value or to
nothing. -/
def RefMap : Type := CString → Option CString

/-- The empty reference map. -/
def RefMap.empty : RefMap := fun _ => none

/-- Reference insert: set `key` to `value`. -/
def RefMap.set (m : RefMap) (key value : CString) : RefMap :=
  fun k => if k = key then some value else m k

/-- Reference remove: delete `key`. -/
def RefMap.delete (m : RefMap) (key : CString) : RefMap :=
  fun k => if k = key then none else m k

/-- The same sequence of calls run on the reference map. -/
def ref_run (m : RefMap) : List Op → RefMap
  | [] => m
  | Op.insert key value :: rest => ref_run (m.set key value) rest
  | Op.remove key :: rest => ref_run (m.delete key) rest

/-- The key `"line_5"`. -/
def line_5 : CString := ⟨[108, 105, 110, 101, 95, 53], by decide⟩

/-- A table with distinct keys inside each chain in which `"line_1"` occurs in both
buckets: in bucket 0 in front of `"line_5"`, and alone in bucket 1. -/
def twin_table : HashTable :=
  { capacity := 2,
    storage := [[⟨line_1, value_1⟩, ⟨line_5, value_2⟩], [⟨line_1, value_1⟩]] }

/-- A table of capacity 1 whose only bucket holds `"line_1"` in front of `"line_5"`. -/
def single_bucket_table : HashTable :=
  { capacity := 1, storage := [[⟨line_1, value_1⟩, ⟨line_5, value_2⟩]] }

/-! # Theorems -/

/-! ## Strings: `strcmp` decides equality -/

theorem strcmp_bytes_eq_zero_iff (s1 s2 : List Nat) (h1 : ∀ b ∈ s1, 0 < b ∧ b < 256)
    (h2 : ∀ b ∈ s2, 0 < b ∧ b < 256) : strcmp_bytes s1 s2 = 0 ↔ s1 = s2 := by
  induction s1 generalizing s2 with
  | nil =>
    cases s2 with
    | nil => simp [strcmp_bytes]
    | cons b s2 =>
      have hb := (h2 b (List.mem_cons_self _ _)).1
      simp [strcmp_bytes]
      omega
  | cons a s1 ih =>
    cases s2 with
    | nil =>
      have ha := (h1 a (List.mem_cons_self _ _)).1
      simp [strcmp_bytes]
      omega
    | cons b s2 =>
      have ih1 := ih s2 (fun x hx => h1 x (List.mem_cons_of_mem _ hx))
        (fun x hx => h2 x (List.mem_cons_of_mem _ hx))
      by_cases hab : a = b
      · subst hab
        simp [strcmp_bytes, ih1]
      · simp only [strcmp_bytes, if_neg hab]
        constructor
        · intro h
          omega
        · intro h
          exact absurd (List.cons.inj h).1 hab

theorem CString.ext_bytes {a b : CString} (h : a.bytes = b.bytes) : a = b := by
  cases a; cases b; cases h; rfl

theorem strcmp_eq_zero_iff (s1 s2 : CString) : strcmp s1 s2 = 0 ↔ s1 = s2 := by
  unfold strcmp
  rw [strcmp_bytes_eq_zero_iff _ _ s1.valid s2.valid]
  exact ⟨CString.ext_bytes, fun h => by rw [h]⟩

/-! ## The hash function: range -/

theorem to_ulong_of_int (max : Int) (hpos : 0 < max) (hmax : max ≤ INT_MAX) :
    to_ulong max = max.toNat := by
  unfold to_ulong ULONG_SIZE
  unfold INT_MAX at hmax
  rw [Int.emod_eq_of_lt (le_of_lt hpos) (by norm_num; omega)]

theorem hash_eq (str : CString) (max : Int) (hpos : 0 < max) (hmax : max ≤ INT_MAX) :
    hash str max = .ok (hash_loop str.bytes 5381 % max.toNat) := by
  have hm : 0 < max.toNat := by omega
  have hlt : hash_loop str.bytes 5381 % max.toNat < max.toNat := Nat.mod_lt _ hm
  have hsmall : hash_loop str.bytes 5381 % max.toNat < UINT_SIZE := by
    unfold INT_MAX at hmax
    unfold UINT_SIZE
    omega
  unfold hash
  rw [to_ulong_of_int max hpos hmax, if_neg (by omega), Nat.mod_eq_of_lt hsmall]

theorem hash_lt (str : CString) (max : Int) (hpos : 0 < max) (hmax : max ≤ INT_MAX) :
    ∃ i, hash str max = .ok i ∧ i < max.toNat :=
  ⟨_, hash_eq str max hpos hmax, Nat.mod_lt _ (by omega)⟩

/-! ## The search loop -/

theorem scan_cons_of_eq (key : CString) (p : LinkedPair) (rest : List LinkedPair)
    (h : p.key = key) : scan key (p :: rest) = ([], p :: rest) := by
  have h0 : strcmp p.key key = 0 := (strcmp_eq_zero_iff _ _).2 h
  simp only [scan, h0, if_true]

theorem scan_cons_of_ne (key : CString) (p : LinkedPair) (rest : List LinkedPair)
    (h : p.key ≠ key) :
    scan key (p :: rest) = (p :: (scan key rest).1, (scan key rest).2) := by
  have h0 : ¬ strcmp p.key key = 0 := fun e => h ((strcmp_eq_zero_iff _ _).1 e)
  simp only [scan, h0, if_false]

theorem scan_snd_nil_iff (key : CString) (chain : List LinkedPair) :
    (scan key chain).2 = [] ↔ ∀ p ∈ chain, p.key ≠ key := by
  induction chain with
  | nil => simp [scan]
  | cons p rest ih =>
    by_cases h : p.key = key
    · rw [scan_cons_of_eq key p rest h]
      simp [h]
    · rw [scan_cons_of_ne key p rest h]
      simp [h, ih]

theorem scan_snd_head (key : CString) (chain : List LinkedPair) :
    (scan key chain).2.head? = first_match key chain := by
  induction chain with
  | nil => simp [scan, first_match]
  | cons p rest ih =>
    by_cases h : p.key = key
    · rw [scan_cons_of_eq key p rest h]
      simp [h, first_match]
    · rw [scan_cons_of_ne key p rest h]
      simp only [first_match, List.find?_cons, h, decide_False]
      exact ih

theorem scan_erase (key : CString) (chain : List LinkedPair) :
    (scan key chain).1 ++ (scan key chain).2.tail = erase_first key chain := by
  induction chain with
  | nil => simp [scan, erase_first]
  | cons p rest ih =>
    by_cases h : p.key = key
    · rw [scan_cons_of_eq key p rest h]
      simp [h, erase_first]
    · rw [scan_cons_of_ne key p rest h]
      simp only [erase_first, List.eraseP_cons, h, decide_False, List.cons_append, cond_false]
      rw [ih]
      rfl

theorem erase_first_of_absent (key : CString) (chain : List LinkedPair)
    (h : ∀ p ∈ chain, p.key ≠ key) : erase_first key chain = chain := by
  unfold erase_first
  apply List.eraseP_of_forall_not
  intro p hp
  simp [h p hp]

/-! ## The operations in closed form -/

theorem set_of_getElem? {α : Type} (l : List α) (i : Nat) (x : α) (h : l[i]? = some x) :
    l.set i x = l := by
  induction l generalizing i with
  | nil => simp
  | cons a l ih =>
    cases i with
    | zero =>
      simp at h
      simp [h]
    | succ i =>
      simp at h
      simp [ih i h]

theorem lt_length_of_getElem? {α : Type} (l : List α) (i : Nat) (x : α) (h : l[i]? = some x) :
    i < l.length := by
  rcases List.getElem?_eq_some_iff.1 h with ⟨hlt, _⟩
  exact hlt

/-- Closed form of `hash_table_remove`: the chain of the key's bucket loses its first
pair with that key. -/
theorem remove_eq (ht : HashTable) (key : CString) (i : Nat) (chain : List LinkedPair)
    (hh : hash key ht.capacity = .ok i) (hc : ht.storage[i]? = some chain) :
    hash_table_remove ht key =
      .ok { ht with storage := ht.storage.set i (erase_first key chain) } := by
  have h1 := scan_erase key chain
  have h2 := scan_snd_nil_iff key chain
  unfold hash_table_remove
  simp only [hh, hc]
  rcases hs : scan key chain with ⟨a, b⟩
  rw [hs] at h1 h2
  cases b with
  | nil =>
    have habs : erase_first key chain = chain :=
      erase_first_of_absent key chain (h2.1 rfl)
    simp only [habs, set_of_getElem? _ _ _ hc]
  | cons cur next =>
    cases a with
    | nil =>
      simp only [List.tail_cons, List.nil_append] at h1
      simp only [h1]
    | cons first others =>
      simp only [List.tail_cons] at h1
      simp only [h1]

/-- Closed form of `hash_table_insert`: the new pair heads the chain of the key's bucket,
in front of the old chain without its first pair of that key. -/
theorem insert_eq (ht : HashTable) (key value : CString) (i : Nat) (chain : List LinkedPair)
    (hh : hash key ht.capacity = .ok i) (hc : ht.storage[i]? = some chain) :
    hash_table_insert ht key value =
      .ok { ht with storage :=
              ht.storage.set i (create_pair key value :: erase_first key chain) } := by
  have hlt := lt_length_of_getElem? _ _ _ hc
  unfold hash_table_insert
  simp only [remove_eq ht key i chain hh hc, hh, List.getElem?_set_self hlt, List.set_set]

/-- Closed form of `hash_table_retrieve`: the value of the first pair with the key in
the chain of the key's bucket. -/
theorem retrieve_eq (ht : HashTable) (key : CString) (i : Nat) (chain : List LinkedPair)
    (hh : hash key ht.capacity = .ok i) (hc : ht.storage[i]? = some chain) :
    hash_table_retrieve ht key =
      .ok ((first_match key chain).map (fun p => p.value)) := by
  have h1 := scan_snd_head key chain
  unfold hash_table_retrieve
  simp only [hh, hc]
  cases hs : (scan key chain).2 with
  | nil =>
    rw [hs] at h1
    rw [← h1]
    rfl
  | cons cur next =>
    rw [hs] at h1
    rw [← h1]
    rfl

/-! ## Well-formed tables -/

/-- In a well-shaped table every key has a bucket. -/
theorem bucket_exists (ht : HashTable) (hw : WellShaped ht) (key : CString) :
    ∃ i chain, hash key ht.capacity = .ok i ∧ ht.storage[i]? = some chain := by
  obtain ⟨hpos, hmax, hlen⟩ := hw
  obtain ⟨i, hi, hlt⟩ := hash_lt key ht.capacity hpos hmax
  have hlt2 : i < ht.storage.length := by omega
  exact ⟨i, ht.storage[i], hi, List.getElem?_eq_getElem hlt2⟩

/-! ## Invariants -/

theorem create_wellShaped (c : Int) (hpos : 0 < c) (hmax : c ≤ INT_MAX) :
    WellShaped (create_hash_table c) := by
  refine ⟨hpos, hmax, ?_⟩
  simp only [create_hash_table, List.length_replicate]
  omega

theorem set_wellShaped (ht : HashTable) (hw : WellShaped ht) (i : Nat)
    (chain : List LinkedPair) : WellShaped { ht with storage := ht.storage.set i chain } := by
  obtain ⟨hpos, hmax, hlen⟩ := hw
  exact ⟨hpos, hmax, by simpa using hlen⟩

theorem erase_first_keys_sublist (key : CString) (chain : List LinkedPair) :
    ((erase_first key chain).map (fun p => p.key)).Sublist (chain.map (fun p => p.key)) :=
  (List.eraseP_sublist chain).map _

theorem erase_first_nodup (key : CString) (chain : List LinkedPair)
    (h : (chain.map (fun p => p.key)).Nodup) :
    ((erase_first key chain).map (fun p => p.key)).Nodup :=
  h.sublist (erase_first_keys_sublist key chain)

theorem mem_of_mem_erase_first (key : CString) (chain : List LinkedPair) (p : LinkedPair)
    (h : p ∈ erase_first key chain) : p ∈ chain :=
  (List.eraseP_sublist chain).subset h

/-- In a chain without duplicate keys, erasing the first pair of a key erases the key. -/
theorem erase_first_absent (key : CString) (chain : List LinkedPair)
    (h : (chain.map (fun p => p.key)).Nodup) :
    ∀ p ∈ erase_first key chain, p.key ≠ key := by
  induction chain with
  | nil => simp [erase_first]
  | cons q rest ih =>
    rw [List.map_cons, List.nodup_cons] at h
    by_cases hq : q.key = key
    · have he : erase_first key (q :: rest) = rest := by
        simp [erase_first, List.eraseP_cons, hq]
      rw [he]
      intro p hp hpk
      apply h.1
      rw [hq, ← hpk]
      exact List.mem_map_of_mem _ hp
    · have he : erase_first key (q :: rest) = q :: erase_first key rest := by
        simp [erase_first, List.eraseP_cons, hq]
      rw [he]
      intro p hp
      rcases List.mem_cons.1 hp with hpq | hpr
      · rw [hpq]
        exact hq
      · exact ih h.2 p hpr

theorem set_noDuplicateKeys (ht : HashTable) (hn : NoDuplicateKeys ht) (i : Nat)
    (chain : List LinkedPair) (hc : (chain.map (fun p => p.key)).Nodup) :
    NoDuplicateKeys { ht with storage := ht.storage.set i chain } := by
  intro c hmem
  rcases List.mem_or_eq_of_mem_set hmem with h | h
  · exact hn c h
  · rw [h]
    exact hc

theorem set_bucketPlacement (ht : HashTable) (hb : BucketPlacement ht) (i : Nat)
    (chain : List LinkedPair) (hc : ∀ p ∈ chain, hash p.key ht.capacity = .ok i) :
    BucketPlacement { ht with storage := ht.storage.set i chain } := by
  intro j c hj p hp
  by_cases hij : i = j
  · subst hij
    have hlt : i < ht.storage.length := by
      by_contra hge
      rw [List.set_eq_of_length_le (Nat.le_of_not_lt hge)] at hj
      exact hge (lt_length_of_getElem? _ _ _ hj)
    rw [List.getElem?_set_self hlt] at hj
    rw [← Option.some.inj hj] at hp
    exact hc p hp
  · simp only [List.getElem?_set_ne hij] at hj
    exact hb j c hj p hp

theorem mem_storage_of_getElem? (ht : HashTable) (i : Nat) (chain : List LinkedPair)
    (hc : ht.storage[i]? = some chain) : chain ∈ ht.storage :=
  List.mem_iff_getElem?.2 ⟨i, hc⟩

/-- What `hash_table_remove` keeps: shape, capacity, distinct keys, placement. -/
theorem remove_invariants (t t1 : HashTable) (k : CString) (hw : WellShaped t)
    (hr : hash_table_remove t k = .ok t1) :
    WellShaped t1 ∧ t1.capacity = t.capacity ∧
      (NoDuplicateKeys t → NoDuplicateKeys t1) ∧ (BucketPlacement t → BucketPlacement t1) := by
  obtain ⟨i, chain, hh, hc⟩ := bucket_exists t hw k
  rw [remove_eq t k i chain hh hc] at hr
  have ht1 := (Except.ok.inj hr).symm
  subst ht1
  refine ⟨set_wellShaped t hw i _, rfl, ?_, ?_⟩
  · intro hn
    exact set_noDuplicateKeys t hn i _
      (erase_first_nodup k chain (hn chain (mem_storage_of_getElem? t i chain hc)))
  · intro hb
    exact set_bucketPlacement t hb i _
      (fun p hp => hb i chain hc p (mem_of_mem_erase_first k chain p hp))

/-- What `hash_table_insert` keeps: shape, capacity, distinct keys, placement. -/
theorem insert_invariants (t t1 : HashTable) (k v : CString) (hw : WellShaped t)
    (hr : hash_table_insert t k v = .ok t1) :
    WellShaped t1 ∧ t1.capacity = t.capacity ∧
      (NoDuplicateKeys t → NoDuplicateKeys t1) ∧ (BucketPlacement t → BucketPlacement t1) := by
  obtain ⟨i, chain, hh, hc⟩ := bucket_exists t hw k
  rw [insert_eq t k v i chain hh hc] at hr
  have ht1 := (Except.ok.inj hr).symm
  subst ht1
  refine ⟨set_wellShaped t hw i _, rfl, ?_, ?_⟩
  · intro hn
    have hnc := hn chain (mem_storage_of_getElem? t i chain hc)
    apply set_noDuplicateKeys t hn i
    rw [List.map_cons, List.nodup_cons]
    refine ⟨?_, erase_first_nodup k chain hnc⟩
    intro hmem
    obtain ⟨p, hp, hpk⟩ := List.mem_map.1 hmem
    exact erase_first_absent k chain hnc p hp hpk
  · intro hb
    apply set_bucketPlacement t hb i
    intro p hp
    rcases List.mem_cons.1 hp with hpn | hpo
    · rw [hpn]
      exact hh
    · exact hb i chain hc p (mem_of_mem_erase_first k chain p hpo)

theorem create_noDuplicateKeys (c : Int) : NoDuplicateKeys (create_hash_table c) := by
  intro chain hmem
  rw [(List.mem_replicate.1 hmem).2]
  exact List.nodup_nil

theorem create_bucketPlacement (c : Int) : BucketPlacement (create_hash_table c) := by
  intro i chain hc p hp
  have hmem : chain ∈ List.replicate c.toNat ([] : List LinkedPair) :=
    List.mem_iff_getElem?.2 ⟨i, hc⟩
  rw [(List.mem_replicate.1 hmem).2] at hp
  exact absurd hp (List.not_mem_nil p)

/-- Every table built from `create_hash_table c` with `c` a positive `int` is well shaped,
has capacity `c`, has distinct keys in every chain and keeps every pair in its bucket. -/
theorem built_invariants (c : Int) (hpos : 0 < c) (hmax : c ≤ INT_MAX) (t : HashTable)
    (hb : Built c t) :
    WellShaped t ∧ t.capacity = c ∧ NoDuplicateKeys t ∧ BucketPlacement t := by
  induction hb with
  | create =>
    exact ⟨create_wellShaped c hpos hmax, rfl, create_noDuplicateKeys c,
      create_bucketPlacement c⟩
  | insert t t1 k v _ hins ih =>
    obtain ⟨hw, hcap, hn, hp⟩ := ih
    obtain ⟨hw1, hcap1, hn1, hp1⟩ := insert_invariants t t1 k v hw hins
    exact ⟨hw1, hcap1.trans hcap, hn1 hn, hp1 hp⟩
  | remove t t1 k _ hrem ih =>
    obtain ⟨hw, hcap, hn, hp⟩ := ih
    obtain ⟨hw1, hcap1, hn1, hp1⟩ := remove_invariants t t1 k hw hrem
    exact ⟨hw1, hcap1.trans hcap, hn1 hn, hp1 hp⟩

/-! ## Retrieval after an update -/

theorem first_match_cons_self (key value : CString) (chain : List LinkedPair) :
    first_match key (create_pair key value :: chain) = some (create_pair key value) := by
  simp [first_match, create_pair, strdup]

theorem first_match_none_iff (key : CString) (chain : List LinkedPair) :
    first_match key chain = none ↔ ∀ p ∈ chain, p.key ≠ key := by
  simp [first_match]

/-- Retrieval from the bucket that an update has just replaced. -/
theorem retrieve_set_same (t : HashTable) (k : CString) (i : Nat) (chain : List LinkedPair)
    (hh : hash k t.capacity = .ok i) (hlt : i < t.storage.length) :
    hash_table_retrieve { t with storage := t.storage.set i chain } k =
      .ok ((first_match k chain).map (fun p => p.value)) :=
  retrieve_eq { t with storage := t.storage.set i chain } k i chain hh
    (List.getElem?_set_self hlt)

/-- Retrieval from a bucket other than the one an update has replaced. -/
theorem retrieve_set_other (t : HashTable) (k : CString) (i j : Nat)
    (chain : List LinkedPair) (hh : hash k t.capacity = .ok j) (hij : i ≠ j) :
    hash_table_retrieve { t with storage := t.storage.set i chain } k =
      hash_table_retrieve t k := by
  unfold hash_table_retrieve
  simp only [hh, List.getElem?_set_ne hij]

/-- Retrieval of the key just inserted, in a well-shaped table. -/
theorem retrieve_insert_self (t : HashTable) (k v : CString) (hw : WellShaped t) :
    ∃ t1, hash_table_insert t k v = .ok t1 ∧ hash_table_retrieve t1 k = .ok (some v) := by
  obtain ⟨i, chain, hh, hc⟩ := bucket_exists t hw k
  have hlt := lt_length_of_getElem? _ _ _ hc
  refine ⟨_, insert_eq t k v i chain hh hc, ?_⟩
  rw [retrieve_set_same t k i _ hh hlt, first_match_cons_self]
  rfl

/-- Retrieval after removal, in a well-shaped table without duplicate keys. -/
theorem retrieve_remove_self (t : HashTable) (k : CString) (hw : WellShaped t)
    (hn : NoDuplicateKeys t) :
    ∃ t1, hash_table_remove t k = .ok t1 ∧ hash_table_retrieve t1 k = .ok none := by
  obtain ⟨i, chain, hh, hc⟩ := bucket_exists t hw k
  have hlt := lt_length_of_getElem? _ _ _ hc
  refine ⟨_, remove_eq t k i chain hh hc, ?_⟩
  have hnone : first_match k (erase_first k chain) = none :=
    (first_match_none_iff k _).2
      (erase_first_absent k chain (hn chain (mem_storage_of_getElem? t i chain hc)))
  rw [retrieve_set_same t k i _ hh hlt, hnone]
  rfl

/-! ## Counting the pairs of a key -/

theorem countP_key_eq_zero (key : CString) (chain : List LinkedPair)
    (h : ∀ p ∈ chain, p.key ≠ key) :
    chain.countP (fun p => decide (p.key = key)) = 0 := by
  rw [List.countP_eq_zero]
  intro p hp
  simp [h p hp]

theorem countP_key_le_one (key : CString) (chain : List LinkedPair)
    (h : (chain.map (fun p => p.key)).Nodup) :
    chain.countP (fun p => decide (p.key = key)) ≤ 1 := by
  induction chain with
  | nil => simp
  | cons q rest ih =>
    rw [List.map_cons, List.nodup_cons] at h
    by_cases hq : q.key = key
    · have hz : rest.countP (fun p => decide (p.key = key)) = 0 := by
        apply countP_key_eq_zero
        intro p hp hpk
        apply h.1
        rw [hq, ← hpk]
        exact List.mem_map_of_mem _ hp
      simp [List.countP_cons, hq, hz]
    · have := ih h.2
      simp [List.countP_cons, hq, this]

theorem sum_map_single {α : Type} (f : α → Nat) (l : List α) (i : Nat) (x : α)
    (hx : l[i]? = some x) (hz : ∀ j y, l[j]? = some y → j ≠ i → f y = 0) :
    (l.map f).sum = f x := by
  induction l generalizing i with
  | nil => simp at hx
  | cons a l ih =>
    have hrest : ∀ m y, l[m]? = some y → m + 1 ≠ i → f y = 0 := by
      intro m y hm hne
      exact hz (m + 1) y (by simpa using hm) hne
    cases i with
    | zero =>
      simp only [List.getElem?_cons_zero, Option.some.injEq] at hx
      have hall : ∀ y ∈ l, f y = 0 := by
        intro y hy
        obtain ⟨m, hm⟩ := List.mem_iff_getElem?.1 hy
        exact hrest m y hm (by omega)
      have hsum : (l.map f).sum = 0 := by
        rw [List.sum_eq_zero_iff]
        intro n hn
        obtain ⟨y, hy, hfy⟩ := List.mem_map.1 hn
        rw [← hfy]
        exact hall y hy
      rw [List.map_cons, List.sum_cons, hsum, hx]
      rfl
    | succ i =>
      have ha : f a = 0 := hz 0 a (by simp) (by omega)
      have hx1 : l[i]? = some x := by simpa using hx
      rw [List.map_cons, List.sum_cons, ha, Nat.zero_add]
      exact ih i hx1 (fun j y hj hne => hrest j y hj (by omega))

/-- In a well-shaped table with distinct keys per chain and every pair in its bucket, a
key that is retrieved is the key of exactly one pair of the table. -/
theorem count_key_of_retrieve (t : HashTable) (k v : CString) (hw : WellShaped t)
    (hn : NoDuplicateKeys t) (hb : BucketPlacement t)
    (hr : hash_table_retrieve t k = .ok (some v)) : count_key t k = 1 := by
  obtain ⟨i, chain, hh, hc⟩ := bucket_exists t hw k
  rw [retrieve_eq t k i chain hh hc] at hr
  have hsome : ∃ p, first_match k chain = some p := by
    cases hf : first_match k chain with
    | none => rw [hf] at hr; simp at hr
    | some p => exact ⟨p, rfl⟩
  obtain ⟨p, hp⟩ := hsome
  have hmem : p ∈ chain := List.mem_of_find?_eq_some hp
  have hkey : p.key = k := by
    have := List.find?_some hp
    simpa using this
  have hpos : 0 < chain.countP (fun p => decide (p.key = k)) := by
    rw [List.countP_pos_iff]
    exact ⟨p, hmem, by simp [hkey]⟩
  have hle := countP_key_le_one k chain (hn chain (mem_storage_of_getElem? t i chain hc))
  unfold count_key
  rw [sum_map_single _ t.storage i chain hc]
  · omega
  · intro j c hj hne
    apply countP_key_eq_zero
    intro q hq hqk
    have hqj := hb j c hj q hq
    rw [hqk, hh] at hqj
    exact hne (Except.ok.inj hqj).symm

/-! ## The table of `main` -/

theorem demo_table_built : Built 2 demo_table := by
  have h1 : hash_table_insert (create_hash_table 2) line_1 value_1 =
      .ok { capacity := 2, storage := [[], [⟨line_1, value_1⟩]] } := rfl
  have h2 : hash_table_insert { capacity := 2, storage := [[], [⟨line_1, value_1⟩]] }
      line_2 value_2 =
      .ok { capacity := 2, storage := [[⟨line_2, value_2⟩], [⟨line_1, value_1⟩]] } := rfl
  have h3 : hash_table_insert
      { capacity := 2, storage := [[⟨line_2, value_2⟩], [⟨line_1, value_1⟩]] }
      line_3 value_3 = .ok demo_table := rfl
  exact Built.insert _ _ _ _ (Built.insert _ _ _ _ (Built.insert _ _ _ _ Built.create h1) h2) h3

/-! ## Sequences of insertions -/

theorem first_match_erase_first_ne (k k1 : CString) (chain : List LinkedPair) (hne : k1 ≠ k) :
    first_match k1 (erase_first k chain) = first_match k1 chain := by
  induction chain with
  | nil => rfl
  | cons q rest ih =>
    by_cases hq : q.key = k
    · have he : erase_first k (q :: rest) = rest := by
        simp [erase_first, List.eraseP_cons, hq]
      have hq1 : ¬ q.key = k1 := fun e => hne (e.symm.trans hq)
      rw [he]
      simp [first_match, List.find?_cons, hq1]
    · have he : erase_first k (q :: rest) = q :: erase_first k rest := by
        simp [erase_first, List.eraseP_cons, hq]
      rw [he]
      simp only [first_match, List.find?_cons] at ih ⊢
      rw [ih]

/-- Retrieval of a key other than the one just inserted is unchanged. -/
theorem retrieve_insert_other (t t1 : HashTable) (k k1 v : CString) (hw : WellShaped t)
    (hne : k1 ≠ k) (hins : hash_table_insert t k v = .ok t1) :
    hash_table_retrieve t1 k1 = hash_table_retrieve t k1 := by
  obtain ⟨i, chain, hh, hc⟩ := bucket_exists t hw k
  obtain ⟨j, chain1, hh1, hc1⟩ := bucket_exists t hw k1
  have hlt := lt_length_of_getElem? _ _ _ hc
  rw [insert_eq t k v i chain hh hc] at hins
  rw [← Except.ok.inj hins]
  by_cases hij : i = j
  · subst hij
    have hcc : chain1 = chain := Option.some.inj (hc1.symm.trans hc)
    subst hcc
    have hk : ¬ (create_pair k v).key = k1 := fun e => hne e.symm
    rw [retrieve_set_same t k1 i _ hh1 hlt, retrieve_eq t k1 i chain1 hh1 hc1]
    have : first_match k1 (create_pair k v :: erase_first k chain1) = first_match k1 chain1 := by
      rw [← first_match_erase_first_ne k k1 chain1 hne]
      simp [first_match, List.find?_cons, hk]
    rw [this]
  · exact retrieve_set_other t k1 i j _ hh1 hij

/-- A sequence of insertions into a well-shaped table returns; the result is well shaped,
has the same capacity, and retrieves for every key the last value inserted with it, or
what the table retrieved before when the key was not inserted. -/
theorem insert_all_spec (kvs : List (CString × CString)) (t : HashTable) (hw : WellShaped t) :
    ∃ t1, insert_all t kvs = .ok t1 ∧ WellShaped t1 ∧ t1.capacity = t.capacity ∧
      ∀ k, hash_table_retrieve t1 k =
        match last_value k kvs with
        | some v => .ok (some v)
        | none => hash_table_retrieve t k := by
  induction kvs generalizing t with
  | nil => exact ⟨t, rfl, hw, rfl, fun k => rfl⟩
  | cons kv rest ih =>
    obtain ⟨t1, h1, hr1⟩ := retrieve_insert_self t kv.1 kv.2 hw
    obtain ⟨hw1, hcap1, _, _⟩ := insert_invariants t t1 kv.1 kv.2 hw h1
    obtain ⟨t2, h2, hw2, hcap2, hr2⟩ := ih t1 hw1
    refine ⟨t2, ?_, hw2, hcap2.trans hcap1, ?_⟩
    · simp only [insert_all, h1]
      exact h2
    · intro k
      rw [hr2 k]
      simp only [last_value]
      cases hl : last_value k rest with
      | some v => rfl
      | none =>
        by_cases hk : kv.1 = k
        · simp only [hk, if_true]
          rw [← hk]
          exact hr1
        · simp only [hk, if_false]
          exact retrieve_insert_other t t1 kv.1 k kv.2 hw (fun e => hk e.symm) h1

theorem insert_all_append (l1 l2 : List (CString × CString)) (t : HashTable) :
    insert_all t (l1 ++ l2) =
      match insert_all t l1 with
      | .error e => .error e
      | .ok t1 => insert_all t1 l2 := by
  induction l1 generalizing t with
  | nil => rfl
  | cons kv rest ih =>
    simp only [List.cons_append, insert_all]
    cases hash_table_insert t kv.1 kv.2 with
    | error e => rfl
    | ok t1 => exact ih t1

theorem reinsert_chain_eq (chain : List LinkedPair) (new_ht : HashTable) :
    reinsert_chain new_ht chain = insert_all new_ht (pairs_of chain) := by
  induction chain generalizing new_ht with
  | nil => rfl
  | cons p rest ih =>
    simp only [reinsert_chain, pairs_of, List.map_cons, insert_all]
    cases hash_table_insert new_ht p.key p.value with
    | error e => rfl
    | ok t1 => exact ih t1

/-- The outer loop of `hash_table_resize` inserts the pairs of the buckets it visits, in
bucket order and chain order. -/
theorem resize_loop_eq (ht : HashTable) (n index : Nat) (new_ht : HashTable)
    (hle : index + n ≤ ht.storage.length) :
    resize_loop ht n index new_ht =
      insert_all new_ht (pairs_of ((ht.storage.drop index).take n).flatten) := by
  induction n generalizing index new_ht with
  | zero => rfl
  | succ n ih =>
    have hlt : index < ht.storage.length := by omega
    rw [List.drop_eq_getElem_cons hlt, List.take_succ_cons, List.flatten_cons]
    simp only [resize_loop, List.getElem?_eq_getElem hlt, pairs_of, List.map_append]
    rw [insert_all_append, reinsert_chain_eq]
    simp only [pairs_of]
    cases insert_all new_ht (List.map (fun p => (p.key, p.value)) ht.storage[index]) with
    | error e => rfl
    | ok t1 => exact ih (index + 1) t1 (by omega)

theorem retrieve_create (c : Int) (hpos : 0 < c) (hint : c ≤ INT_MAX) (k : CString) :
    hash_table_retrieve (create_hash_table c) k = .ok none := by
  obtain ⟨i, chain, hh, hc⟩ := bucket_exists _ (create_wellShaped c hpos hint) k
  have hmem := mem_storage_of_getElem? _ i chain hc
  have hnil : chain = [] := (List.mem_replicate.1 hmem).2
  rw [retrieve_eq _ k i chain hh hc, hnil]
  rfl

/-- Closed form of `hash_table_resize` on a well-shaped table whose doubled capacity is an
`int`: the argument is returned as it was, next to the result of inserting every pair of
every bucket into a fresh table of twice the capacity. -/
theorem resize_eq (t : HashTable) (hw : WellShaped t) (h2 : t.capacity * 2 ≤ INT_MAX) :
    ∃ new_ht, hash_table_resize t = .ok (t, new_ht) ∧
      insert_all (create_hash_table (t.capacity * 2)) (pairs_of t.storage.flatten) =
        .ok new_ht := by
  obtain ⟨hpos, hint, hlen⟩ := hw
  have hw2 : WellShaped (create_hash_table (t.capacity * 2)) :=
    create_wellShaped _ (by omega) h2
  obtain ⟨new_ht, hnew, _⟩ := insert_all_spec (pairs_of t.storage.flatten) _ hw2
  have hn : t.capacity.toNat = t.storage.length := by omega
  have hloop := resize_loop_eq t t.capacity.toNat 0 (create_hash_table (t.capacity * 2))
    (by omega)
  rw [List.drop_zero, hn, List.take_length, hnew] at hloop
  refine ⟨new_ht, ?_, hnew⟩
  have hno : ¬ (t.capacity * 2 < INT_MIN ∨ INT_MAX < t.capacity * 2) := by
    unfold INT_MIN
    omega
  unfold hash_table_resize
  rw [if_neg hno, hn, hloop]

/-! ## Last inserted value against first match -/

theorem last_value_eq_none_iff (k : CString) (l : List (CString × CString)) :
    last_value k l = none ↔ ∀ kv ∈ l, kv.1 ≠ k := by
  induction l with
  | nil => simp [last_value]
  | cons kv rest ih =>
    simp only [last_value, List.mem_cons, forall_eq_or_imp]
    cases hl : last_value k rest with
    | some w =>
      simp only [false_iff, not_and, reduceCtorEq]
      intro _ hall
      rw [ih.2 hall] at hl
      exact Option.noConfusion hl
    | none =>
      by_cases hk : kv.1 = k
      · simp [hk]
      · simp only [hk, if_false, ne_eq, not_false_eq_true, true_and, true_iff]
        exact ih.1 hl

theorem last_value_mem (k w : CString) (l : List (CString × CString))
    (h : last_value k l = some w) : ∃ kv ∈ l, kv.1 = k ∧ kv.2 = w := by
  induction l with
  | nil => simp [last_value] at h
  | cons kv rest ih =>
    simp only [last_value] at h
    cases hl : last_value k rest with
    | some w1 =>
      rw [hl] at h
      obtain ⟨kv1, hmem, hk1⟩ := ih (hl.trans h)
      exact ⟨kv1, List.mem_cons_of_mem _ hmem, hk1⟩
    | none =>
      rw [hl] at h
      by_cases hk : kv.1 = k
      · simp only [hk, if_true, Option.some.injEq] at h
        exact ⟨kv, List.mem_cons_self _ _, hk, h⟩
      · simp [hk] at h

/-- When every pair of a sequence with key `k` carries the value `v`, and there is one,
the last value of `k` is `v`. -/
theorem last_value_unique (k v : CString) (l : List (CString × CString))
    (hex : ∃ kv ∈ l, kv.1 = k) (hall : ∀ kv ∈ l, kv.1 = k → kv.2 = v) :
    last_value k l = some v := by
  cases hl : last_value k l with
  | none =>
    obtain ⟨kv, hmem, hk⟩ := hex
    exact absurd hk ((last_value_eq_none_iff k l).1 hl kv hmem)
  | some w =>
    obtain ⟨kv, hmem, hk, hw⟩ := last_value_mem k w l hl
    rw [← hw, hall kv hmem hk]

/-- Under bucket placement every pair of the table with key `k` sits in the bucket of `k`. -/
theorem mem_bucket_of_mem_flatten (t : HashTable) (hb : BucketPlacement t) (k : CString)
    (i : Nat) (chain : List LinkedPair) (hh : hash k t.capacity = .ok i)
    (hc : t.storage[i]? = some chain) (q : LinkedPair) (hq : q ∈ t.storage.flatten)
    (hqk : q.key = k) : q ∈ chain := by
  obtain ⟨c, hcmem, hqc⟩ := List.mem_flatten.1 hq
  obtain ⟨j, hj⟩ := List.mem_iff_getElem?.1 hcmem
  have hqj := hb j c hj q hqc
  rw [hqk, hh] at hqj
  have hij : i = j := Except.ok.inj hqj
  subst hij
  rw [← Option.some.inj (hj.symm.trans hc)]
  exact hqc

/-- In a well-shaped table with distinct keys per chain and every pair in its bucket,
retrieval returns the last value of the key in the sequence of all pairs of the table. -/
theorem retrieve_eq_last_value (t : HashTable) (hw : WellShaped t) (hn : NoDuplicateKeys t)
    (hb : BucketPlacement t) (k : CString) :
    hash_table_retrieve t k = .ok (last_value k (pairs_of t.storage.flatten)) := by
  obtain ⟨i, chain, hh, hc⟩ := bucket_exists t hw k
  rw [retrieve_eq t k i chain hh hc]
  cases hf : first_match k chain with
  | none =>
    have hnone : last_value k (pairs_of t.storage.flatten) = none := by
      rw [last_value_eq_none_iff]
      intro kv hkv hk
      obtain ⟨q, hq, hqkv⟩ := List.mem_map.1 hkv
      have hqk : q.key = k := by rw [← hqkv] at hk; exact hk
      exact (first_match_none_iff k chain).1 hf q
        (mem_bucket_of_mem_flatten t hb k i chain hh hc q hq hqk) hqk
    rw [hnone]
    rfl
  | some p =>
    have hmem : p ∈ chain := List.mem_of_find?_eq_some hf
    have hkey : p.key = k := by
      have := List.find?_some hf
      simpa using this
    have hsome : last_value k (pairs_of t.storage.flatten) = some p.value := by
      apply last_value_unique
      · exact ⟨(p.key, p.value),
          List.mem_map_of_mem _
            (List.mem_flatten.2 ⟨chain, mem_storage_of_getElem? t i chain hc, hmem⟩), hkey⟩
      · intro kv hkv hk
        obtain ⟨q, hq, hqkv⟩ := List.mem_map.1 hkv
        have hqk : q.key = k := by rw [← hqkv] at hk; exact hk
        have hqc := mem_bucket_of_mem_flatten t hb k i chain hh hc q hq hqk
        have hqp : q = p :=
          List.inj_on_of_nodup_map (hn chain (mem_storage_of_getElem? t i chain hc)) hqc hmem
            (hqk.trans hkey.symm)
        rw [← hqkv, hqp]
    rw [hsome]
    rfl

/-- In a table with distinct keys per chain and every pair in its bucket, every stored
pair is retrieved by its key. -/
theorem retrieve_of_mem (t : HashTable) (hn : NoDuplicateKeys t)
    (hb : BucketPlacement t) (i : Nat) (chain : List LinkedPair)
    (hc : t.storage[i]? = some chain) (p : LinkedPair) (hp : p ∈ chain) :
    hash_table_retrieve t p.key = .ok (some p.value) := by
  have hh := hb i chain hc p hp
  rw [retrieve_eq t p.key i chain hh hc]
  cases hf : first_match p.key chain with
  | none => exact absurd rfl ((first_match_none_iff p.key chain).1 hf p hp)
  | some q =>
    have hmem : q ∈ chain := List.mem_of_find?_eq_some hf
    have hkey : q.key = p.key := by
      have := List.find?_some hf
      simpa using this
    have hqp : q = p :=
      List.inj_on_of_nodup_map (hn chain (mem_storage_of_getElem? t i chain hc)) hmem hp hkey
    rw [hqp]
    rfl

/-! ## Contract of insert, remove and retrieve -/

/-- C1: in a table with a positive `int` capacity and as many buckets as its capacity,
`hash_table_insert` returns and `hash_table_retrieve` of the inserted key then returns the
inserted value, never `NULL`. -/
theorem insert_then_retrieve (t : HashTable) (k v : CString) (hpos : 0 < t.capacity)
    (hint : t.capacity ≤ INT_MAX) (hlen : (t.storage.length : Int) = t.capacity) :
    ∃ t1, hash_table_insert t k v = .ok t1 ∧ hash_table_retrieve t1 k = .ok (some v) :=
  retrieve_insert_self t k v ⟨hpos, hint, hlen⟩

theorem insert_then_retrieve_witness :
    (0 < demo_table.capacity ∧ demo_table.capacity ≤ INT_MAX ∧
      (demo_table.storage.length : Int) = demo_table.capacity) ∧
    ∃ t1, hash_table_insert demo_table line_1 value_2 = .ok t1 ∧
      hash_table_retrieve t1 line_1 = .ok (some value_2) :=
  ⟨⟨by decide, by decide, by decide⟩,
    insert_then_retrieve demo_table line_1 value_2 (by decide) (by decide) (by decide)⟩

/-- C2: on a table built from `create_hash_table c` (`c` a positive `int`) by inserts and
removes, inserting `k` twice returns both times, `hash_table_retrieve` of `k` then returns
the second value, and exactly one pair over all buckets has key `k`. -/
theorem insert_overwrite (c : Int) (t : HashTable) (k v1 v2 : CString) (hpos : 0 < c)
    (hint : c ≤ INT_MAX) (hb : Built c t) :
    ∃ t1 t2, hash_table_insert t k v1 = .ok t1 ∧ hash_table_insert t1 k v2 = .ok t2 ∧
      hash_table_retrieve t2 k = .ok (some v2) ∧ count_key t2 k = 1 := by
  obtain ⟨hw, _, _, _⟩ := built_invariants c hpos hint t hb
  obtain ⟨t1, h1, _⟩ := retrieve_insert_self t k v1 hw
  have hb1 : Built c t1 := Built.insert t t1 k v1 hb h1
  obtain ⟨hw1, _, _, _⟩ := built_invariants c hpos hint t1 hb1
  obtain ⟨t2, h2, hr2⟩ := retrieve_insert_self t1 k v2 hw1
  have hb2 : Built c t2 := Built.insert t1 t2 k v2 hb1 h2
  obtain ⟨hw2, _, hn2, hp2⟩ := built_invariants c hpos hint t2 hb2
  exact ⟨t1, t2, h1, h2, hr2, count_key_of_retrieve t2 k v2 hw2 hn2 hp2 hr2⟩

theorem insert_overwrite_witness :
    ((0 : Int) < 2 ∧ (2 : Int) ≤ INT_MAX ∧ Built 2 demo_table) ∧
    ∃ t1 t2, hash_table_insert demo_table line_1 value_3 = .ok t1 ∧
      hash_table_insert t1 line_1 value_2 = .ok t2 ∧
      hash_table_retrieve t2 line_1 = .ok (some value_2) ∧ count_key t2 line_1 = 1 :=
  ⟨⟨by decide, by decide, demo_table_built⟩,
    insert_overwrite 2 demo_table line_1 value_3 value_2 (by decide) (by decide)
      demo_table_built⟩

/-- C3: on a table built from `create_hash_table c` (`c` a positive `int`) by inserts and
removes, inserting `k` and then removing `k` both return, and `hash_table_retrieve` of `k`
then returns `NULL`. -/
theorem insert_remove_retrieve (c : Int) (t : HashTable) (k v : CString) (hpos : 0 < c)
    (hint : c ≤ INT_MAX) (hb : Built c t) :
    ∃ t1 t2, hash_table_insert t k v = .ok t1 ∧ hash_table_remove t1 k = .ok t2 ∧
      hash_table_retrieve t2 k = .ok none := by
  obtain ⟨hw, _, _, _⟩ := built_invariants c hpos hint t hb
  obtain ⟨t1, h1, _⟩ := retrieve_insert_self t k v hw
  have hb1 : Built c t1 := Built.insert t t1 k v hb h1
  obtain ⟨hw1, _, hn1, _⟩ := built_invariants c hpos hint t1 hb1
  obtain ⟨t2, h2, hr2⟩ := retrieve_remove_self t1 k hw1 hn1
  exact ⟨t1, t2, h1, h2, hr2⟩

theorem insert_remove_retrieve_witness :
    ((0 : Int) < 2 ∧ (2 : Int) ≤ INT_MAX ∧ Built 2 demo_table) ∧
    ∃ t1 t2, hash_table_insert demo_table line_1 value_3 = .ok t1 ∧
      hash_table_remove t1 line_1 = .ok t2 ∧ hash_table_retrieve t2 line_1 = .ok none :=
  ⟨⟨by decide, by decide, demo_table_built⟩,
    insert_remove_retrieve 2 demo_table line_1 value_3 (by decide) (by decide)
      demo_table_built⟩

theorem first_match_append (key : CString) (before after : List LinkedPair) (p : LinkedPair)
    (hbefore : ∀ q ∈ before, q.key ≠ key) (hp : p.key = key) :
    first_match key (before ++ p :: after) = some p := by
  induction before with
  | nil => simp [first_match, hp]
  | cons q rest ih =>
    have hq : q.key ≠ key := hbefore q (List.mem_cons_self _ _)
    have := ih (fun x hx => hbefore x (List.mem_cons_of_mem _ hx))
    simp only [first_match] at this
    simp [first_match, List.find?_cons, hq, this]

/-- C6: in a table with a positive `int` capacity and as many buckets as its capacity, the
key has a bucket; `hash_table_retrieve` returns `NULL` exactly when no pair of that
bucket's chain has a key with the same bytes, and when the chain is `before ++ p :: after`
with `p` the first pair whose key has the bytes of `k`, it returns the value of `p`. -/
theorem retrieve_first_match (t : HashTable) (k : CString) (hpos : 0 < t.capacity)
    (hint : t.capacity ≤ INT_MAX) (hlen : (t.storage.length : Int) = t.capacity) :
    ∃ i chain, hash k t.capacity = .ok i ∧ t.storage[i]? = some chain ∧
      (hash_table_retrieve t k = .ok none ↔ ∀ p ∈ chain, p.key.bytes ≠ k.bytes) ∧
      (∀ before p after, chain = before ++ p :: after →
        (∀ q ∈ before, q.key.bytes ≠ k.bytes) → p.key.bytes = k.bytes →
        hash_table_retrieve t k = .ok (some p.value)) := by
  obtain ⟨i, chain, hh, hc⟩ := bucket_exists t ⟨hpos, hint, hlen⟩ k
  have hne : ∀ q : LinkedPair, q.key.bytes ≠ k.bytes ↔ q.key ≠ k := fun q =>
    ⟨fun h e => h (by rw [e]), fun h e => h (CString.ext_bytes e)⟩
  refine ⟨i, chain, hh, hc, ?_, ?_⟩
  · rw [retrieve_eq t k i chain hh hc]
    constructor
    · intro h p hp
      rw [hne]
      have hnone : first_match k chain = none := by
        cases hf : first_match k chain with
        | none => rfl
        | some q => rw [hf] at h; simp at h
      exact (first_match_none_iff k chain).1 hnone p hp
    · intro h
      have hnone : first_match k chain = none :=
        (first_match_none_iff k chain).2 (fun p hp => (hne p).1 (h p hp))
      rw [hnone]
      rfl
  · intro before p after hchain hbefore hp
    rw [retrieve_eq t k i chain hh hc, hchain,
      first_match_append k before after p (fun q hq => (hne q).1 (hbefore q hq))
        (CString.ext_bytes hp)]
    rfl

theorem retrieve_first_match_witness :
    (0 < demo_table.capacity ∧ demo_table.capacity ≤ INT_MAX ∧
      (demo_table.storage.length : Int) = demo_table.capacity) ∧
    ∃ i chain, hash line_1 demo_table.capacity = .ok i ∧
      demo_table.storage[i]? = some chain ∧
      (hash_table_retrieve demo_table line_1 = .ok none ↔
        ∀ p ∈ chain, p.key.bytes ≠ line_1.bytes) ∧
      (∀ before p after, chain = before ++ p :: after →
        (∀ q ∈ before, q.key.bytes ≠ line_1.bytes) → p.key.bytes = line_1.bytes →
        hash_table_retrieve demo_table line_1 = .ok (some p.value)) :=
  ⟨⟨by decide, by decide, by decide⟩,
    retrieve_first_match demo_table line_1 (by decide) (by decide) (by decide)⟩

/-- C7: in a table with a positive `int` capacity and as many buckets as its capacity,
`hash_table_remove` of a key that no pair of its bucket carries returns the table as it
was; and on a table built from `create_hash_table c` by inserts and removes, a second
`hash_table_remove` of the same key returns the table the first one returned. -/
theorem remove_absent_noop_idempotent :
    (∀ (t : HashTable) (k : CString), 0 < t.capacity → t.capacity ≤ INT_MAX →
      (t.storage.length : Int) = t.capacity →
      (∀ i chain, hash k t.capacity = .ok i → t.storage[i]? = some chain →
        ∀ p ∈ chain, p.key ≠ k) →
      hash_table_remove t k = .ok t) ∧
    (∀ (c : Int) (t : HashTable) (k : CString), 0 < c → c ≤ INT_MAX → Built c t →
      ∃ t1, hash_table_remove t k = .ok t1 ∧ hash_table_remove t1 k = .ok t1) := by
  have hnoop : ∀ (t : HashTable) (k : CString), WellShaped t →
      (∀ i chain, hash k t.capacity = .ok i → t.storage[i]? = some chain →
        ∀ p ∈ chain, p.key ≠ k) →
      hash_table_remove t k = .ok t := by
    intro t k hw habs
    obtain ⟨i, chain, hh, hc⟩ := bucket_exists t hw k
    rw [remove_eq t k i chain hh hc,
      erase_first_of_absent k chain (habs i chain hh hc), set_of_getElem? _ _ _ hc]
  refine ⟨fun t k hpos hint hlen habs => hnoop t k ⟨hpos, hint, hlen⟩ habs, ?_⟩
  intro c t k hpos hint hb
  obtain ⟨hw, _, hn, _⟩ := built_invariants c hpos hint t hb
  obtain ⟨i, chain, hh, hc⟩ := bucket_exists t hw k
  have hlt := lt_length_of_getElem? _ _ _ hc
  refine ⟨_, remove_eq t k i chain hh hc, ?_⟩
  apply hnoop _ k (set_wellShaped t hw i _)
  intro j c1 hj hc1
  have hij : j = i := Except.ok.inj (hj.symm.trans hh)
  subst hij
  have hc2 : (t.storage.set j (erase_first k chain))[j]? = some c1 := hc1
  rw [List.getElem?_set_self hlt] at hc2
  rw [← Option.some.inj hc2]
  exact erase_first_absent k chain (hn chain (mem_storage_of_getElem? t j chain hc))

theorem remove_absent_noop_idempotent_witness :
    hash_table_remove demo_table line_1 =
      .ok { capacity := 2, storage := [[⟨line_2, value_2⟩], [⟨line_3, value_3⟩]] } ∧
    hash_table_remove { capacity := 2, storage := [[⟨line_2, value_2⟩], [⟨line_3, value_3⟩]] }
      line_1 =
      .ok { capacity := 2, storage := [[⟨line_2, value_2⟩], [⟨line_3, value_3⟩]] } ∧
    ∃ t1, hash_table_remove demo_table line_1 = .ok t1 ∧
      hash_table_remove t1 line_1 = .ok t1 :=
  ⟨rfl,
    remove_absent_noop_idempotent.1
      { capacity := 2, storage := [[⟨line_2, value_2⟩], [⟨line_3, value_3⟩]] } line_1
      (by decide) (by decide) (by decide)
      (by
        intro i chain hi hc
        have hi1 : i = 1 := (Except.ok.inj hi).symm
        subst hi1
        have hc1 : chain = [⟨line_3, value_3⟩] := (Option.some.inj hc).symm
        subst hc1
        decide),
    remove_absent_noop_idempotent.2 2 demo_table line_1 (by decide) (by decide)
      demo_table_built⟩

/-! ## The hash function -/

/-- C9: for every key and every positive `int` modulus, `hash` returns a non-negative
integer below the modulus, and it is the `unsigned long` remainder itself: the conversion
to `unsigned int` loses nothing. -/
theorem hash_in_range (key : CString) (max : Int) (hpos : 0 < max) (hint : max ≤ INT_MAX) :
    ∃ i : Nat, hash key max = .ok i ∧ 0 ≤ (i : Int) ∧ (i : Int) < max ∧
      i = hash_loop key.bytes 5381 % to_ulong max := by
  obtain ⟨i, hi, hlt⟩ := hash_lt key max hpos hint
  refine ⟨i, hi, Int.ofNat_nonneg i, by omega, ?_⟩
  rw [hash_eq key max hpos hint] at hi
  rw [to_ulong_of_int max hpos hint]
  exact (Except.ok.inj hi).symm

theorem hash_in_range_witness :
    ((0 : Int) < 2 ∧ (2 : Int) ≤ INT_MAX) ∧
    ∃ i : Nat, hash line_3 2 = .ok i ∧ 0 ≤ (i : Int) ∧ (i : Int) < 2 ∧
      i = hash_loop line_3.bytes 5381 % to_ulong 2 :=
  ⟨⟨by decide, by decide⟩, hash_in_range line_3 2 (by decide) (by decide)⟩

set_option maxRecDepth 100000 in
/-- On a 27-byte string the accumulator wraps around `2 ^ 64` several times; the value
differs from the one unbounded arithmetic would give (44153). -/
theorem hash_wraparound_example :
    hash_loop value_3.bytes 5381 = 9649001247418954596 ∧ hash value_3 1000003 = .ok 53090 :=
  ⟨rfl, rfl⟩

theorem hash_step_eq (acc c : Nat) : hash_step acc c = (acc * 33 + c) % 2 ^ 64 := by
  unfold hash_step ULONG_SIZE
  rw [Nat.shiftLeft_eq]
  omega

theorem hash_loop_eq_foldl (bytes : List Nat) (h : Nat) (hvalid : ∀ b ∈ bytes, 0 < b ∧ b < 256) :
    hash_loop bytes h =
      bytes.foldl (fun accumulator byte => (accumulator * 33 + byte) % 2 ^ 64) h := by
  induction bytes generalizing h with
  | nil => rfl
  | cons c rest ih =>
    have hc : c ≠ 0 := by
      have := (hvalid c (List.mem_cons_self _ _)).1
      omega
    simp only [hash_loop, if_neg hc, List.foldl_cons, hash_step_eq]
    exact ih _ (fun b hb => hvalid b (List.mem_cons_of_mem _ hb))

/-- C10: for every key and every positive `int` modulus, `hash` returns the djb2 reference
value (fold of `acc * 33 + byte` modulo `2 ^ 64` from 5381, then modulo the modulus);
`(acc << 5) + acc` on `unsigned long` is `acc * 33` modulo `2 ^ 64`; the result depends on
the bytes of the key and the modulus only; and `hash("line_1", 2)` is 1. -/
theorem hash_eq_djb2 (key : CString) (max : Int) (hpos : 0 < max) (hint : max ≤ INT_MAX) :
    hash key max = .ok (djb2_spec key max.toNat) ∧
    (∀ acc : Nat, ((acc <<< 5) % ULONG_SIZE + acc) % ULONG_SIZE = (acc * 33) % 2 ^ 64) ∧
    (∀ acc c : Nat, hash_step acc c = (acc * 33 + c) % 2 ^ 64) ∧
    (∀ other : CString, other.bytes = key.bytes → hash other max = hash key max) ∧
    hash line_1 2 = .ok 1 := by
  refine ⟨?_, ?_, hash_step_eq, ?_, rfl⟩
  · rw [hash_eq key max hpos hint, hash_loop_eq_foldl key.bytes 5381 key.valid]
    rfl
  · intro acc
    unfold ULONG_SIZE
    rw [Nat.shiftLeft_eq]
    omega
  · intro other hother
    rw [CString.ext_bytes hother]

theorem hash_eq_djb2_witness :
    ((0 : Int) < 4 ∧ (4 : Int) ≤ INT_MAX) ∧
    hash line_3 4 = .ok (djb2_spec line_3 (4 : Int).toNat) ∧
    (∀ acc : Nat, ((acc <<< 5) % ULONG_SIZE + acc) % ULONG_SIZE = (acc * 33) % 2 ^ 64) ∧
    (∀ acc c : Nat, hash_step acc c = (acc * 33 + c) % 2 ^ 64) ∧
    (∀ other : CString, other.bytes = line_3.bytes → hash other 4 = hash line_3 4) ∧
    hash line_1 2 = .ok 1 :=
  ⟨⟨by decide, by decide⟩, hash_eq_djb2 line_3 4 (by decide) (by decide)⟩

/-! ## Resize and collisions -/

/-- C4: on a table built from `create_hash_table c` by inserts and removes, with `c`
positive and `2 * c` an `int`, `hash_table_resize` returns a table from which every key
retrieves what it retrieves from the argument; in particular the value of every pair
stored in the argument is retrieved from the new table by the key of the pair. -/
theorem resize_preserves_contents (c : Int) (t : HashTable) (hpos : 0 < c)
    (h2 : c * 2 ≤ INT_MAX) (hb : Built c t) :
    ∃ new_ht, (∃ t_after, hash_table_resize t = .ok (t_after, new_ht)) ∧
      (∀ k, hash_table_retrieve new_ht k = hash_table_retrieve t k) ∧
      (∀ (i : Nat) (chain : List LinkedPair) (p : LinkedPair),
        t.storage[i]? = some chain → p ∈ chain →
        hash_table_retrieve new_ht p.key = .ok (some p.value)) := by
  obtain ⟨hw, hcap, hn, hp⟩ := built_invariants c hpos (by omega) t hb
  have h2t : t.capacity * 2 ≤ INT_MAX := by rw [hcap]; exact h2
  obtain ⟨new_ht, hres, hall⟩ := resize_eq t hw h2t
  have hw2 : WellShaped (create_hash_table (t.capacity * 2)) :=
    create_wellShaped _ (by rw [hcap]; omega) h2t
  obtain ⟨t1, ht1, _, _, hr⟩ := insert_all_spec (pairs_of t.storage.flatten) _ hw2
  have heq : t1 = new_ht := Except.ok.inj (ht1.symm.trans hall)
  subst heq
  have hsame : ∀ k, hash_table_retrieve t1 k = hash_table_retrieve t k := by
    intro k
    rw [hr k, retrieve_eq_last_value t hw hn hp k]
    cases last_value k (pairs_of t.storage.flatten) with
    | some v => rfl
    | none => exact retrieve_create _ (by rw [hcap]; omega) h2t k
  refine ⟨t1, ⟨t, hres⟩, hsame, ?_⟩
  intro i chain p hc hpc
  rw [hsame p.key]
  exact retrieve_of_mem t hn hp i chain hc p hpc

theorem resize_preserves_contents_witness :
    ((0 : Int) < 2 ∧ (2 : Int) * 2 ≤ INT_MAX ∧ Built 2 demo_table) ∧
    ∃ new_ht, (∃ t_after, hash_table_resize demo_table = .ok (t_after, new_ht)) ∧
      (∀ k, hash_table_retrieve new_ht k = hash_table_retrieve demo_table k) ∧
      (∀ (i : Nat) (chain : List LinkedPair) (p : LinkedPair),
        demo_table.storage[i]? = some chain → p ∈ chain →
        hash_table_retrieve new_ht p.key = .ok (some p.value)) :=
  ⟨⟨by decide, by decide, demo_table_built⟩,
    resize_preserves_contents 2 demo_table (by decide) (by decide) demo_table_built⟩

/-- C5: for every positive `int` capacity and every sequence of key/value pairs with
pairwise distinct keys, inserting them all into the table of `create_hash_table` returns,
and `hash_table_retrieve` of each key then returns the value inserted with it. -/
theorem distinct_keys_retrievable (c : Int) (kvs : List (CString × CString)) (hpos : 0 < c)
    (hint : c ≤ INT_MAX) (hd : (kvs.map (fun kv => kv.1)).Nodup) :
    ∃ t, insert_all (create_hash_table c) kvs = .ok t ∧
      ∀ kv ∈ kvs, hash_table_retrieve t kv.1 = .ok (some kv.2) := by
  obtain ⟨t, ht, _, _, hr⟩ := insert_all_spec kvs _ (create_wellShaped c hpos hint)
  refine ⟨t, ht, ?_⟩
  intro kv hkv
  have hl : last_value kv.1 kvs = some kv.2 := by
    apply last_value_unique
    · exact ⟨kv, hkv, rfl⟩
    · intro kv1 hkv1 hk
      rw [List.inj_on_of_nodup_map hd hkv1 hkv hk]
  rw [hr kv.1, hl]

theorem distinct_keys_retrievable_witness :
    ((0 : Int) < 2 ∧ (2 : Int) ≤ INT_MAX ∧
      ([(line_1, value_1), (line_2, value_2), (line_3, value_3)].map
        (fun kv => kv.1)).Nodup) ∧
    (hash line_1 2 = .ok 1 ∧ hash line_3 2 = .ok 1) ∧
    ∃ t, insert_all (create_hash_table 2)
        [(line_1, value_1), (line_2, value_2), (line_3, value_3)] = .ok t ∧
      ∀ kv ∈ [(line_1, value_1), (line_2, value_2), (line_3, value_3)],
        hash_table_retrieve t kv.1 = .ok (some kv.2) :=
  ⟨⟨by decide, by decide, by decide⟩, ⟨rfl, rfl⟩,
    distinct_keys_retrievable 2 [(line_1, value_1), (line_2, value_2), (line_3, value_3)]
      (by decide) (by decide) (by decide)⟩

/-- C8: on a table with positive capacity `c`, as many buckets as its capacity and `2 * c`
an `int`, `hash_table_resize` returns; the table returned has capacity `2 * c` and `2 * c`
buckets, and the argument table is after the call what it was before. -/
theorem resize_doubles_capacity (t : HashTable) (hpos : 0 < t.capacity)
    (h2 : t.capacity * 2 ≤ INT_MAX) (hlen : (t.storage.length : Int) = t.capacity) :
    ∃ t_after new_ht, hash_table_resize t = .ok (t_after, new_ht) ∧
      new_ht.capacity = 2 * t.capacity ∧ (new_ht.storage.length : Int) = 2 * t.capacity ∧
      t_after = t := by
  have hw : WellShaped t := ⟨hpos, by omega, hlen⟩
  obtain ⟨new_ht, hres, hall⟩ := resize_eq t hw h2
  have hw2 : WellShaped (create_hash_table (t.capacity * 2)) :=
    create_wellShaped _ (by omega) h2
  obtain ⟨t1, ht1, hw1, hcap1, _⟩ := insert_all_spec (pairs_of t.storage.flatten) _ hw2
  have heq : t1 = new_ht := Except.ok.inj (ht1.symm.trans hall)
  subst heq
  have hc : t1.capacity = 2 * t.capacity := by
    rw [hcap1]
    simp only [create_hash_table]
    omega
  exact ⟨t, t1, hres, hc, by rw [hw1.2.2, hc], rfl⟩

theorem resize_doubles_capacity_witness :
    (0 < demo_table.capacity ∧ demo_table.capacity * 2 ≤ INT_MAX ∧
      (demo_table.storage.length : Int) = demo_table.capacity) ∧
    ∃ t_after new_ht, hash_table_resize demo_table = .ok (t_after, new_ht) ∧
      new_ht.capacity = 2 * demo_table.capacity ∧
      (new_ht.storage.length : Int) = 2 * demo_table.capacity ∧ t_after = demo_table :=
  ⟨⟨by decide, by decide, by decide⟩,
    resize_doubles_capacity demo_table (by decide) (by decide) (by decide)⟩

/-! ## Calls that return -/

/-- A call of `hash_table_remove` that returns has found a bucket for the key. -/
theorem remove_ok_bucket (t t1 : HashTable) (k : CString)
    (h : hash_table_remove t k = .ok t1) :
    ∃ i chain, hash k t.capacity = .ok i ∧ t.storage[i]? = some chain := by
  unfold hash_table_remove at h
  cases hh : hash k t.capacity with
  | error e =>
    rw [hh] at h
    exact Except.noConfusion h
  | ok i =>
    cases hc : t.storage[i]? with
    | none =>
      simp only [hh, hc] at h
      exact Except.noConfusion h
    | some chain => exact ⟨i, chain, rfl, hc⟩

/-- A call of `hash_table_insert` that returns has found a bucket for the key. -/
theorem insert_ok_bucket (t t1 : HashTable) (k v : CString)
    (h : hash_table_insert t k v = .ok t1) :
    ∃ i chain, hash k t.capacity = .ok i ∧ t.storage[i]? = some chain := by
  unfold hash_table_insert at h
  cases hr : hash_table_remove t k with
  | error e =>
    rw [hr] at h
    exact Except.noConfusion h
  | ok t2 => exact remove_ok_bucket t t2 k hr

/-- The table a returning `hash_table_remove` returns. -/
theorem remove_ok_eq (t t1 : HashTable) (k : CString)
    (h : hash_table_remove t k = .ok t1) :
    ∃ i chain, hash k t.capacity = .ok i ∧ t.storage[i]? = some chain ∧
      t1 = { t with storage := t.storage.set i (erase_first k chain) } := by
  obtain ⟨i, chain, hh, hc⟩ := remove_ok_bucket t t1 k h
  rw [remove_eq t k i chain hh hc] at h
  exact ⟨i, chain, hh, hc, (Except.ok.inj h).symm⟩

/-- The table a returning `hash_table_insert` returns. -/
theorem insert_ok_eq (t t1 : HashTable) (k v : CString)
    (h : hash_table_insert t k v = .ok t1) :
    ∃ i chain, hash k t.capacity = .ok i ∧ t.storage[i]? = some chain ∧
      t1 = { t with storage :=
              t.storage.set i (create_pair k v :: erase_first k chain) } := by
  obtain ⟨i, chain, hh, hc⟩ := insert_ok_bucket t t1 k v h
  rw [insert_eq t k v i chain hh hc] at h
  exact ⟨i, chain, hh, hc, (Except.ok.inj h).symm⟩

theorem insert_returns (t : HashTable) (hw : WellShaped t) (k v : CString) :
    ∃ t1, hash_table_insert t k v = .ok t1 ∧ WellShaped t1 := by
  obtain ⟨t1, h1, _⟩ := retrieve_insert_self t k v hw
  exact ⟨t1, h1, (insert_invariants t t1 k v hw h1).1⟩

theorem remove_returns (t : HashTable) (hw : WellShaped t) (k : CString) :
    ∃ t1, hash_table_remove t k = .ok t1 ∧ WellShaped t1 := by
  obtain ⟨i, chain, hh, hc⟩ := bucket_exists t hw k
  exact ⟨_, remove_eq t k i chain hh hc, set_wellShaped t hw i _⟩

theorem retrieve_returns (t : HashTable) (hw : WellShaped t) (k : CString) :
    ∃ r, hash_table_retrieve t k = .ok r := by
  obtain ⟨i, chain, hh, hc⟩ := bucket_exists t hw k
  exact ⟨_, retrieve_eq t k i chain hh hc⟩

/-- What a returning `hash_table_resize` returns, on a well-shaped table. -/
theorem resize_ok_eq (t ta new_ht : HashTable) (hw : WellShaped t)
    (h : hash_table_resize t = .ok (ta, new_ht)) :
    t.capacity * 2 ≤ INT_MAX ∧ ta = t ∧
      insert_all (create_hash_table (t.capacity * 2)) (pairs_of t.storage.flatten) =
        .ok new_ht := by
  have h2 : t.capacity * 2 ≤ INT_MAX := by
    by_contra hno
    have hover : t.capacity * 2 < INT_MIN ∨ INT_MAX < t.capacity * 2 :=
      Or.inr (lt_of_not_le hno)
    unfold hash_table_resize at h
    rw [if_pos hover] at h
    exact Except.noConfusion h
  obtain ⟨new1, hres, hall⟩ := resize_eq t hw h2
  rw [hres] at h
  have hpair := Except.ok.inj h
  have hta : t = ta := congrArg Prod.fst hpair
  have hnew : new1 = new_ht := congrArg Prod.snd hpair
  rw [← hnew]
  exact ⟨h2, hta.symm, hall⟩

/-- On a well-shaped table `hash_table_resize` reaches neither an index outside the
storage nor a division by zero. -/
theorem resize_no_index_fault (t : HashTable) (hw : WellShaped t) :
    hash_table_resize t ≠ .error .outOfBounds ∧ hash_table_resize t ≠ .error .divByZero := by
  by_cases h2 : t.capacity * 2 ≤ INT_MAX
  · obtain ⟨new1, hres, _⟩ := resize_eq t hw h2
    rw [hres]
    exact ⟨fun h => Except.noConfusion h, fun h => Except.noConfusion h⟩
  · have hover : t.capacity * 2 < INT_MIN ∨ INT_MAX < t.capacity * 2 :=
      Or.inr (lt_of_not_le h2)
    unfold hash_table_resize
    rw [if_pos hover]
    constructor
    · intro h
      exact Fault.noConfusion (Except.error.inj h)
    · intro h
      exact Fault.noConfusion (Except.error.inj h)

/-! ## Invariants along the loops of resize -/

theorem reinsert_chain_preserves (P : HashTable → Prop)
    (hP : ∀ t k v t1, hash_table_insert t k v = .ok t1 → P t → P t1)
    (chain : List LinkedPair) (new_ht new1 : HashTable)
    (h : reinsert_chain new_ht chain = .ok new1) (hnew : P new_ht) : P new1 := by
  induction chain generalizing new_ht with
  | nil =>
    rw [← Except.ok.inj h]
    exact hnew
  | cons p rest ih =>
    simp only [reinsert_chain] at h
    cases hi : hash_table_insert new_ht p.key p.value with
    | error e =>
      rw [hi] at h
      exact Except.noConfusion h
    | ok t2 =>
      rw [hi] at h
      exact ih t2 h (hP new_ht p.key p.value t2 hi hnew)

theorem resize_loop_preserves (P : HashTable → Prop)
    (hP : ∀ t k v t1, hash_table_insert t k v = .ok t1 → P t → P t1)
    (ht : HashTable) (n index : Nat) (new_ht new1 : HashTable)
    (h : resize_loop ht n index new_ht = .ok new1) (hnew : P new_ht) : P new1 := by
  induction n generalizing index new_ht with
  | zero =>
    rw [← Except.ok.inj h]
    exact hnew
  | succ n ih =>
    simp only [resize_loop] at h
    cases hc : ht.storage[index]? with
    | none =>
      rw [hc] at h
      exact Except.noConfusion h
    | some chain =>
      simp only [hc] at h
      cases hr : reinsert_chain new_ht chain with
      | error e =>
        simp only [hr] at h
        exact Except.noConfusion h
      | ok t2 =>
        simp only [hr] at h
        exact ih (index + 1) t2 h (reinsert_chain_preserves P hP chain new_ht t2 hr hnew)

/-- A property that every returning insertion keeps and that the fresh table of twice the
capacity has, holds for the table a returning `hash_table_resize` returns. -/
theorem resize_preserves (P : HashTable → Prop)
    (hP : ∀ t k v t1, hash_table_insert t k v = .ok t1 → P t → P t1)
    (t ta new_ht : HashTable) (h : hash_table_resize t = .ok (ta, new_ht))
    (hfresh : P (create_hash_table (t.capacity * 2))) : P new_ht := by
  unfold hash_table_resize at h
  split at h
  · exact Except.noConfusion h
  · cases hl : resize_loop t t.capacity.toNat 0 (create_hash_table (t.capacity * 2)) with
    | error e =>
      rw [hl] at h
      exact Except.noConfusion h
    | ok t2 =>
      rw [hl] at h
      have hnew : t2 = new_ht := congrArg Prod.snd (Except.ok.inj h)
      rw [← hnew]
      exact resize_loop_preserves P hP t _ 0 _ t2 hl hfresh

/-! ## Creation -/

/-- C11: for every positive `int` capacity `c`, `create_hash_table c` returns a table whose
capacity field is `c` and whose storage has exactly `c` buckets, all empty; and
`hash_table_retrieve` on it returns `NULL` for every key. -/
theorem create_empty_table (c : Int) (hpos : 0 < c) (hint : c ≤ INT_MAX) :
    (create_hash_table c).capacity = c ∧
    ((create_hash_table c).storage.length : Int) = c ∧
    (∀ i : Nat, (i : Int) < c → (create_hash_table c).storage[i]? = some []) ∧
    ∀ k, hash_table_retrieve (create_hash_table c) k = .ok none := by
  refine ⟨rfl, (create_wellShaped c hpos hint).2.2, ?_, retrieve_create c hpos hint⟩
  intro i hi
  have hlt : i < c.toNat := by omega
  simp only [create_hash_table, List.getElem?_replicate, if_pos hlt]

theorem create_empty_table_witness :
    ((0 : Int) < 2 ∧ (2 : Int) ≤ INT_MAX) ∧
    (create_hash_table 2).capacity = 2 ∧
    ((create_hash_table 2).storage.length : Int) = 2 ∧
    (∀ i : Nat, (i : Int) < 2 → (create_hash_table 2).storage[i]? = some []) ∧
    ∀ k, hash_table_retrieve (create_hash_table 2) k = .ok none :=
  ⟨⟨by decide, by decide⟩, create_empty_table 2 (by decide) (by decide)⟩

/-- C13, as stated, fails: `create_hash_table` has no check of its argument. With capacity
0 and with capacity -1 it returns a table (with that capacity and no bucket), and a later
call runs on that table into a division by zero or into an index outside the storage. -/
theorem create_nonpositive_returns_table :
    create_hash_table 0 = { capacity := 0, storage := [] } ∧
    create_hash_table (-1) = { capacity := -1, storage := [] } ∧
    hash_table_retrieve (create_hash_table 0) line_1 = .error .divByZero ∧
    hash_table_insert (create_hash_table (-1)) line_1 value_1 = .error .outOfBounds :=
  ⟨rfl, rfl, rfl, rfl⟩

theorem hash_zero (k : CString) : hash k 0 = .error .divByZero := rfl

theorem hash_negative (k : CString) (c : Int) (hneg : c < 0) (hmin : INT_MIN ≤ c) :
    ∃ i, hash k c = .ok i := by
  have hne : to_ulong c ≠ 0 := by
    unfold to_ulong ULONG_SIZE
    unfold INT_MIN at hmin
    simp only [Nat.cast_pow, Nat.cast_ofNat]
    omega
  unfold hash
  rw [if_neg hne]
  exact ⟨_, rfl⟩

/-- C13, amended: called with an `int` capacity that is not positive, `create_hash_table`
returns a table with that capacity and no bucket; every later `hash_table_insert`,
`hash_table_remove` or `hash_table_retrieve` on that table is undefined behaviour: a
division by zero when the capacity is 0, an index outside the storage when it is
negative. -/
theorem create_nonpositive_unchecked (c : Int) (hle : c ≤ 0) (hmin : INT_MIN ≤ c) :
    create_hash_table c = { capacity := c, storage := [] } ∧
    ∀ k v,
      hash_table_insert (create_hash_table c) k v =
        .error (if c = 0 then .divByZero else .outOfBounds) ∧
      hash_table_remove (create_hash_table c) k =
        .error (if c = 0 then .divByZero else .outOfBounds) ∧
      hash_table_retrieve (create_hash_table c) k =
        .error (if c = 0 then .divByZero else .outOfBounds) := by
  have hcreate : create_hash_table c = { capacity := c, storage := [] } := by
    unfold create_hash_table
    rw [Int.toNat_of_nonpos hle]
    rfl
  refine ⟨hcreate, ?_⟩
  intro k v
  rw [hcreate]
  by_cases h0 : c = 0
  · subst h0
    exact ⟨rfl, rfl, rfl⟩
  · obtain ⟨i, hi⟩ := hash_negative k c (by omega) hmin
    simp only [if_neg h0]
    have hrem : hash_table_remove { capacity := c, storage := [] } k =
        .error .outOfBounds := by
      unfold hash_table_remove
      simp only [hi, List.getElem?_nil]
    refine ⟨?_, hrem, ?_⟩
    · unfold hash_table_insert
      simp only [hrem]
    · unfold hash_table_retrieve
      simp only [hi, List.getElem?_nil]

theorem create_nonpositive_unchecked_witness :
    ((-2 : Int) ≤ 0 ∧ INT_MIN ≤ (-2 : Int)) ∧
    create_hash_table (-2) = { capacity := -2, storage := [] } ∧
    ∀ k v,
      hash_table_insert (create_hash_table (-2)) k v =
        .error (if (-2 : Int) = 0 then .divByZero else .outOfBounds) ∧
      hash_table_remove (create_hash_table (-2)) k =
        .error (if (-2 : Int) = 0 then .divByZero else .outOfBounds) ∧
      hash_table_retrieve (create_hash_table (-2)) k =
        .error (if (-2 : Int) = 0 then .divByZero else .outOfBounds) :=
  ⟨⟨by decide, by decide⟩, create_nonpositive_unchecked (-2) (by decide) (by decide)⟩

/-! ## The invariants of the data model -/

theorem insert_keeps_noDuplicateKeys (t t1 : HashTable) (k v : CString)
    (h : hash_table_insert t k v = .ok t1) (hn : NoDuplicateKeys t) :
    NoDuplicateKeys t1 := by
  obtain ⟨i, chain, _, hc, ht1⟩ := insert_ok_eq t t1 k v h
  have hnc := hn chain (mem_storage_of_getElem? t i chain hc)
  rw [ht1]
  apply set_noDuplicateKeys t hn i
  rw [List.map_cons, List.nodup_cons]
  refine ⟨?_, erase_first_nodup k chain hnc⟩
  intro hmem
  obtain ⟨p, hp, hpk⟩ := List.mem_map.1 hmem
  exact erase_first_absent k chain hnc p hp hpk

theorem remove_keeps_noDuplicateKeys (t t1 : HashTable) (k : CString)
    (h : hash_table_remove t k = .ok t1) (hn : NoDuplicateKeys t) :
    NoDuplicateKeys t1 := by
  obtain ⟨i, chain, _, hc, ht1⟩ := remove_ok_eq t t1 k h
  rw [ht1]
  exact set_noDuplicateKeys t hn i _
    (erase_first_nodup k chain (hn chain (mem_storage_of_getElem? t i chain hc)))

theorem insert_keeps_bucketPlacement (t t1 : HashTable) (k v : CString)
    (h : hash_table_insert t k v = .ok t1) (hb : BucketPlacement t) :
    BucketPlacement t1 := by
  obtain ⟨i, chain, hh, hc, ht1⟩ := insert_ok_eq t t1 k v h
  rw [ht1]
  apply set_bucketPlacement t hb i
  intro p hp
  rcases List.mem_cons.1 hp with hpn | hpo
  · rw [hpn]
    exact hh
  · exact hb i chain hc p (mem_of_mem_erase_first k chain p hpo)

theorem remove_keeps_bucketPlacement (t t1 : HashTable) (k : CString)
    (h : hash_table_remove t k = .ok t1) (hb : BucketPlacement t) :
    BucketPlacement t1 := by
  obtain ⟨i, chain, _, hc, ht1⟩ := remove_ok_eq t t1 k h
  rw [ht1]
  exact set_bucketPlacement t hb i _
    (fun p hp => hb i chain hc p (mem_of_mem_erase_first k chain p hp))

theorem insert_keeps_capacity (t t1 : HashTable) (k v : CString)
    (h : hash_table_insert t k v = .ok t1) : t1.capacity = t.capacity := by
  obtain ⟨i, chain, _, _, ht1⟩ := insert_ok_eq t t1 k v h
  rw [ht1]

theorem demo_table_invariants :
    WellShaped demo_table ∧ NoDuplicateKeys demo_table ∧ BucketPlacement demo_table := by
  obtain ⟨hw, _, hn, hb⟩ := built_invariants 2 (by decide) (by decide) demo_table
    demo_table_built
  exact ⟨hw, hn, hb⟩

/-- C12: the predicate "within every bucket chain the keys are pairwise distinct" holds for
the table of `create_hash_table`; every `hash_table_insert` and `hash_table_remove` that
returns keeps it, and on a well-shaped table they return; the table a returning
`hash_table_resize` returns has it when the argument has it, and on a well-shaped table
with `2 * capacity` an `int` the call returns. -/
theorem no_duplicate_keys_invariant :
    (∀ c, NoDuplicateKeys (create_hash_table c)) ∧
    (∀ t k v, NoDuplicateKeys t →
      (∀ t1, hash_table_insert t k v = .ok t1 → NoDuplicateKeys t1) ∧
      (WellShaped t → ∃ t1, hash_table_insert t k v = .ok t1 ∧ NoDuplicateKeys t1)) ∧
    (∀ t k, NoDuplicateKeys t →
      (∀ t1, hash_table_remove t k = .ok t1 → NoDuplicateKeys t1) ∧
      (WellShaped t → ∃ t1, hash_table_remove t k = .ok t1 ∧ NoDuplicateKeys t1)) ∧
    (∀ t, NoDuplicateKeys t →
      (∀ t_after new_ht, hash_table_resize t = .ok (t_after, new_ht) →
        NoDuplicateKeys new_ht) ∧
      (WellShaped t → t.capacity * 2 ≤ INT_MAX →
        ∃ new_ht, hash_table_resize t = .ok (t, new_ht) ∧ NoDuplicateKeys new_ht)) := by
  have hres : ∀ t t_after new_ht, hash_table_resize t = .ok (t_after, new_ht) →
      NoDuplicateKeys new_ht := fun t t_after new_ht h =>
    resize_preserves NoDuplicateKeys
      (fun t k v t1 hi hn => insert_keeps_noDuplicateKeys t t1 k v hi hn) t t_after new_ht h
      (create_noDuplicateKeys _)
  refine ⟨create_noDuplicateKeys, ?_, ?_, ?_⟩
  · intro t k v hn
    refine ⟨fun t1 h => insert_keeps_noDuplicateKeys t t1 k v h hn, ?_⟩
    intro hw
    obtain ⟨t1, h1, _⟩ := insert_returns t hw k v
    exact ⟨t1, h1, insert_keeps_noDuplicateKeys t t1 k v h1 hn⟩
  · intro t k hn
    refine ⟨fun t1 h => remove_keeps_noDuplicateKeys t t1 k h hn, ?_⟩
    intro hw
    obtain ⟨t1, h1, _⟩ := remove_returns t hw k
    exact ⟨t1, h1, remove_keeps_noDuplicateKeys t t1 k h1 hn⟩
  · intro t _
    refine ⟨hres t, ?_⟩
    intro hw h2
    obtain ⟨new_ht, h1, _⟩ := resize_eq t hw h2
    exact ⟨new_ht, h1, hres t t new_ht h1⟩

theorem no_duplicate_keys_invariant_witness :
    NoDuplicateKeys (create_hash_table 2) ∧
    (∃ t1, hash_table_insert demo_table line_1 value_2 = .ok t1 ∧ NoDuplicateKeys t1) ∧
    (∃ t1, hash_table_remove demo_table line_3 = .ok t1 ∧ NoDuplicateKeys t1) ∧
    (∃ new_ht, hash_table_resize demo_table = .ok (demo_table, new_ht) ∧
      NoDuplicateKeys new_ht) :=
  ⟨no_duplicate_keys_invariant.1 2,
    (no_duplicate_keys_invariant.2.1 demo_table line_1 value_2 demo_table_invariants.2.1).2
      demo_table_invariants.1,
    (no_duplicate_keys_invariant.2.2.1 demo_table line_3 demo_table_invariants.2.1).2
      demo_table_invariants.1,
    (no_duplicate_keys_invariant.2.2.2 demo_table demo_table_invariants.2.1).2
      demo_table_invariants.1 (by decide)⟩

/-- C14: the predicate "every pair stored in bucket `i` has a key with
`hash(key, capacity) = i`" holds for the table of `create_hash_table`; every
`hash_table_insert` and `hash_table_remove` that returns keeps it, and on a well-shaped
table they return; the table a returning `hash_table_resize` returns has it, with respect
to its own capacity, which is twice the capacity of the argument, whatever the chains of
the argument contain, and on a well-shaped table with `2 * capacity` an `int` the call
returns. -/
theorem bucket_placement_invariant :
    (∀ c, BucketPlacement (create_hash_table c)) ∧
    (∀ t k v, BucketPlacement t →
      (∀ t1, hash_table_insert t k v = .ok t1 → BucketPlacement t1) ∧
      (WellShaped t → ∃ t1, hash_table_insert t k v = .ok t1 ∧ BucketPlacement t1)) ∧
    (∀ t k, BucketPlacement t →
      (∀ t1, hash_table_remove t k = .ok t1 → BucketPlacement t1) ∧
      (WellShaped t → ∃ t1, hash_table_remove t k = .ok t1 ∧ BucketPlacement t1)) ∧
    (∀ t,
      (∀ t_after new_ht, hash_table_resize t = .ok (t_after, new_ht) →
        BucketPlacement new_ht ∧ new_ht.capacity = t.capacity * 2) ∧
      (WellShaped t → t.capacity * 2 ≤ INT_MAX →
        ∃ new_ht, hash_table_resize t = .ok (t, new_ht) ∧ BucketPlacement new_ht ∧
          new_ht.capacity = t.capacity * 2)) := by
  have hres : ∀ t t_after new_ht, hash_table_resize t = .ok (t_after, new_ht) →
      BucketPlacement new_ht ∧ new_ht.capacity = t.capacity * 2 := by
    intro t t_after new_ht h
    constructor
    · exact resize_preserves BucketPlacement
        (fun t k v t1 hi hb => insert_keeps_bucketPlacement t t1 k v hi hb) t t_after new_ht h
        (create_bucketPlacement _)
    · exact resize_preserves (fun x => x.capacity = t.capacity * 2)
        (fun t0 k v t1 hi hc => (insert_keeps_capacity t0 t1 k v hi).trans hc)
        t t_after new_ht h rfl
  refine ⟨create_bucketPlacement, ?_, ?_, ?_⟩
  · intro t k v hb
    refine ⟨fun t1 h => insert_keeps_bucketPlacement t t1 k v h hb, ?_⟩
    intro hw
    obtain ⟨t1, h1, _⟩ := insert_returns t hw k v
    exact ⟨t1, h1, insert_keeps_bucketPlacement t t1 k v h1 hb⟩
  · intro t k hb
    refine ⟨fun t1 h => remove_keeps_bucketPlacement t t1 k h hb, ?_⟩
    intro hw
    obtain ⟨t1, h1, _⟩ := remove_returns t hw k
    exact ⟨t1, h1, remove_keeps_bucketPlacement t t1 k h1 hb⟩
  · intro t
    refine ⟨hres t, ?_⟩
    intro hw h2
    obtain ⟨new_ht, h1, _⟩ := resize_eq t hw h2
    exact ⟨new_ht, h1, hres t t new_ht h1⟩

theorem bucket_placement_invariant_witness :
    BucketPlacement (create_hash_table 2) ∧
    (∃ t1, hash_table_insert demo_table line_1 value_2 = .ok t1 ∧ BucketPlacement t1) ∧
    (∃ t1, hash_table_remove demo_table line_3 = .ok t1 ∧ BucketPlacement t1) ∧
    (∃ new_ht, hash_table_resize twin_table = .ok (twin_table, new_ht) ∧
      BucketPlacement new_ht ∧ new_ht.capacity = twin_table.capacity * 2) :=
  ⟨bucket_placement_invariant.1 2,
    (bucket_placement_invariant.2.1 demo_table line_1 value_2 demo_table_invariants.2.2).2
      demo_table_invariants.1,
    (bucket_placement_invariant.2.2.1 demo_table line_3 demo_table_invariants.2.2).2
      demo_table_invariants.1,
    (bucket_placement_invariant.2.2.2 twin_table).2
      ⟨by decide, by decide, by decide⟩ (by decide)⟩

/-- C20: the predicate "the capacity is a positive `int` and the storage array has exactly
that many buckets" holds for `create_hash_table c` with `c` a positive `int`. Under it
`hash(key, capacity)` is an index into the storage for every key; `hash_table_insert` and
`hash_table_remove` return a table that has the predicate again; `hash_table_retrieve`
returns; `hash_table_resize` returns when `2 * capacity` is an `int`, both tables have the
predicate whenever it returns, and it never reaches an index outside the storage or a
division by zero. -/
theorem bucket_index_in_bounds :
    (∀ c, 0 < c → c ≤ INT_MAX → WellShaped (create_hash_table c)) ∧
    (∀ t, WellShaped t →
      (∀ key, ∃ i, hash key t.capacity = .ok i ∧ i < t.storage.length) ∧
      (∀ k v, ∃ t1, hash_table_insert t k v = .ok t1 ∧ WellShaped t1) ∧
      (∀ k, ∃ t1, hash_table_remove t k = .ok t1 ∧ WellShaped t1) ∧
      (∀ k, ∃ r, hash_table_retrieve t k = .ok r) ∧
      (∀ t_after new_ht, hash_table_resize t = .ok (t_after, new_ht) →
        WellShaped t_after ∧ WellShaped new_ht) ∧
      (t.capacity * 2 ≤ INT_MAX → ∃ new_ht, hash_table_resize t = .ok (t, new_ht)) ∧
      hash_table_resize t ≠ .error .outOfBounds ∧
      hash_table_resize t ≠ .error .divByZero) := by
  refine ⟨create_wellShaped, ?_⟩
  intro t hw
  refine ⟨?_, insert_returns t hw, remove_returns t hw, retrieve_returns t hw, ?_, ?_,
    (resize_no_index_fault t hw).1, (resize_no_index_fault t hw).2⟩
  · intro key
    obtain ⟨i, chain, hh, hc⟩ := bucket_exists t hw key
    exact ⟨i, hh, lt_length_of_getElem? _ _ _ hc⟩
  · intro t_after new_ht h
    obtain ⟨h2, hta, hall⟩ := resize_ok_eq t t_after new_ht hw h
    have hw2 : WellShaped (create_hash_table (t.capacity * 2)) :=
      create_wellShaped _ (by have := hw.1; omega) h2
    obtain ⟨t1, ht1, hw1, _, _⟩ := insert_all_spec (pairs_of t.storage.flatten) _ hw2
    rw [hta, ← Except.ok.inj (ht1.symm.trans hall)]
    exact ⟨hw, hw1⟩
  · intro h2
    obtain ⟨new_ht, h1, _⟩ := resize_eq t hw h2
    exact ⟨new_ht, h1⟩

theorem bucket_index_in_bounds_witness :
    WellShaped (create_hash_table 2) ∧
    (∃ i, hash line_3 demo_table.capacity = .ok i ∧ i < demo_table.storage.length) ∧
    (∃ t1, hash_table_insert demo_table line_5 value_1 = .ok t1 ∧ WellShaped t1) ∧
    (∃ new_ht, hash_table_resize demo_table = .ok (demo_table, new_ht)) :=
  ⟨bucket_index_in_bounds.1 2 (by decide) (by decide),
    (bucket_index_in_bounds.2 demo_table demo_table_invariants.1).1 line_3,
    (bucket_index_in_bounds.2 demo_table demo_table_invariants.1).2.1 line_5 value_1,
    (bucket_index_in_bounds.2 demo_table demo_table_invariants.1).2.2.2.2.2.1 (by decide)⟩

/-! ## Shape of the chains after an update -/

theorem erase_first_append (key : CString) (before after : List LinkedPair) (p : LinkedPair)
    (hbefore : ∀ q ∈ before, q.key ≠ key) (hp : p.key = key) :
    erase_first key (before ++ p :: after) = before ++ after := by
  induction before with
  | nil => simp [erase_first, List.eraseP_cons, hp]
  | cons q rest ih =>
    have hq : q.key ≠ key := hbefore q (List.mem_cons_self _ _)
    have hrest := ih (fun x hx => hbefore x (List.mem_cons_of_mem _ hx))
    simp only [erase_first] at hrest
    simp [erase_first, List.eraseP_cons, hq, hrest]

/-- Retrieval of a key other than the one just removed is unchanged. -/
theorem retrieve_remove_other (t t1 : HashTable) (k k1 : CString) (hw : WellShaped t)
    (hne : k1 ≠ k) (hrem : hash_table_remove t k = .ok t1) :
    hash_table_retrieve t1 k1 = hash_table_retrieve t k1 := by
  obtain ⟨i, chain, hh, hc⟩ := bucket_exists t hw k
  obtain ⟨j, chain1, hh1, hc1⟩ := bucket_exists t hw k1
  have hlt := lt_length_of_getElem? _ _ _ hc
  rw [remove_eq t k i chain hh hc] at hrem
  rw [← Except.ok.inj hrem]
  by_cases hij : i = j
  · subst hij
    have hcc : chain1 = chain := Option.some.inj (hc1.symm.trans hc)
    subst hcc
    rw [retrieve_set_same t k1 i _ hh1 hlt, retrieve_eq t k1 i chain1 hh1 hc1,
      first_match_erase_first_ne k k1 chain1 hne]
  · exact retrieve_set_other t k1 i j _ hh1 hij

/-- C15: in a table with a positive `int` capacity and as many buckets as its capacity,
`hash_table_insert` returns; afterwards the chain of the key's bucket is the new pair
followed by `rest`, where `rest` is the previous chain when no pair of it has the key, and
is `before ++ after` when the previous chain is `before ++ p :: after` with `p` its first
pair with the key; every other bucket, the number of buckets and the capacity are
unchanged. -/
theorem insert_prepends (t : HashTable) (k v : CString) (hpos : 0 < t.capacity)
    (hint : t.capacity ≤ INT_MAX) (hlen : (t.storage.length : Int) = t.capacity) :
    ∃ i chain rest t1, hash k t.capacity = .ok i ∧ t.storage[i]? = some chain ∧
      hash_table_insert t k v = .ok t1 ∧
      t1.storage[i]? = some ({ key := k, value := v } :: rest) ∧
      ((∀ p ∈ chain, p.key ≠ k) → rest = chain) ∧
      (∀ before p after, chain = before ++ p :: after → (∀ q ∈ before, q.key ≠ k) →
        p.key = k → rest = before ++ after) ∧
      (∀ j, j ≠ i → t1.storage[j]? = t.storage[j]?) ∧
      t1.storage.length = t.storage.length ∧ t1.capacity = t.capacity := by
  obtain ⟨i, chain, hh, hc⟩ := bucket_exists t ⟨hpos, hint, hlen⟩ k
  have hlt := lt_length_of_getElem? _ _ _ hc
  refine ⟨i, chain, erase_first k chain, _, hh, hc, insert_eq t k v i chain hh hc, ?_,
    erase_first_of_absent k chain, ?_, ?_, ?_, rfl⟩
  · exact List.getElem?_set_self hlt
  · intro before p after hchain hbefore hp
    rw [hchain]
    exact erase_first_append k before after p hbefore hp
  · intro j hj
    exact List.getElem?_set_ne (fun e => hj e.symm)
  · exact List.length_set _ _ _

theorem insert_prepends_witness :
    (0 < demo_table.capacity ∧ demo_table.capacity ≤ INT_MAX ∧
      (demo_table.storage.length : Int) = demo_table.capacity) ∧
    ∃ i chain rest t1, hash line_1 demo_table.capacity = .ok i ∧
      demo_table.storage[i]? = some chain ∧
      hash_table_insert demo_table line_1 value_2 = .ok t1 ∧
      t1.storage[i]? = some ({ key := line_1, value := value_2 } :: rest) ∧
      ((∀ p ∈ chain, p.key ≠ line_1) → rest = chain) ∧
      (∀ before p after, chain = before ++ p :: after → (∀ q ∈ before, q.key ≠ line_1) →
        p.key = line_1 → rest = before ++ after) ∧
      (∀ j, j ≠ i → t1.storage[j]? = demo_table.storage[j]?) ∧
      t1.storage.length = demo_table.storage.length ∧ t1.capacity = demo_table.capacity :=
  ⟨⟨by decide, by decide, by decide⟩,
    insert_prepends demo_table line_1 value_2 (by decide) (by decide) (by decide)⟩

/-- C16: in a table with a positive `int` capacity and as many buckets as its capacity,
`hash_table_remove` returns; afterwards the chain of the key's bucket is the previous
chain when no pair of it has the key, and is `before ++ after` when the previous chain is
`before ++ p :: after` with `p` its first pair with the key (`before` empty: `p` was the
head); every other bucket, the number of buckets and the capacity are unchanged, and
`hash_table_retrieve` of every other key returns what it returned before. -/
theorem remove_splices (t : HashTable) (k : CString) (hpos : 0 < t.capacity)
    (hint : t.capacity ≤ INT_MAX) (hlen : (t.storage.length : Int) = t.capacity) :
    ∃ i chain rest t1, hash k t.capacity = .ok i ∧ t.storage[i]? = some chain ∧
      hash_table_remove t k = .ok t1 ∧ t1.storage[i]? = some rest ∧
      ((∀ p ∈ chain, p.key ≠ k) → rest = chain) ∧
      (∀ before p after, chain = before ++ p :: after → (∀ q ∈ before, q.key ≠ k) →
        p.key = k → rest = before ++ after) ∧
      (∀ j, j ≠ i → t1.storage[j]? = t.storage[j]?) ∧
      t1.storage.length = t.storage.length ∧ t1.capacity = t.capacity ∧
      (∀ k1, k1 ≠ k → hash_table_retrieve t1 k1 = hash_table_retrieve t k1) := by
  obtain ⟨i, chain, hh, hc⟩ := bucket_exists t ⟨hpos, hint, hlen⟩ k
  have hlt := lt_length_of_getElem? _ _ _ hc
  have hrem := remove_eq t k i chain hh hc
  refine ⟨i, chain, erase_first k chain, _, hh, hc, hrem, ?_,
    erase_first_of_absent k chain, ?_, ?_, ?_, rfl, ?_⟩
  · exact List.getElem?_set_self hlt
  · intro before p after hchain hbefore hp
    rw [hchain]
    exact erase_first_append k before after p hbefore hp
  · intro j hj
    exact List.getElem?_set_ne (fun e => hj e.symm)
  · exact List.length_set _ _ _
  · intro k1 hne
    exact retrieve_remove_other t _ k k1 ⟨hpos, hint, hlen⟩ hne hrem

theorem remove_splices_witness :
    (0 < demo_table.capacity ∧ demo_table.capacity ≤ INT_MAX ∧
      (demo_table.storage.length : Int) = demo_table.capacity) ∧
    ∃ i chain rest t1, hash line_1 demo_table.capacity = .ok i ∧
      demo_table.storage[i]? = some chain ∧
      hash_table_remove demo_table line_1 = .ok t1 ∧ t1.storage[i]? = some rest ∧
      ((∀ p ∈ chain, p.key ≠ line_1) → rest = chain) ∧
      (∀ before p after, chain = before ++ p :: after → (∀ q ∈ before, q.key ≠ line_1) →
        p.key = line_1 → rest = before ++ after) ∧
      (∀ j, j ≠ i → t1.storage[j]? = demo_table.storage[j]?) ∧
      t1.storage.length = demo_table.storage.length ∧ t1.capacity = demo_table.capacity ∧
      (∀ k1, k1 ≠ line_1 → hash_table_retrieve t1 k1 = hash_table_retrieve demo_table k1) :=
  ⟨⟨by decide, by decide, by decide⟩,
    remove_splices demo_table line_1 (by decide) (by decide) (by decide)⟩

/-! ## Refinement of a finite map -/

/-- A well-shaped table with distinct keys per chain that retrieves what a reference map
binds keeps doing so along every sequence of inserts and removes, which all return. -/
theorem run_ops_refines (ops : List Op) (t : HashTable) (m : RefMap) (hw : WellShaped t)
    (hn : NoDuplicateKeys t) (hm : ∀ k, hash_table_retrieve t k = .ok (m k)) :
    ∃ t1, run_ops t ops = .ok t1 ∧
      ∀ k, hash_table_retrieve t1 k = .ok (ref_run m ops k) := by
  induction ops generalizing t m with
  | nil => exact ⟨t, rfl, hm⟩
  | cons op rest ih =>
    cases op with
    | insert key value =>
      obtain ⟨t1, h1, hr1⟩ := retrieve_insert_self t key value hw
      have hw1 := (insert_invariants t t1 key value hw h1).1
      have hn1 := insert_keeps_noDuplicateKeys t t1 key value h1 hn
      have hm1 : ∀ k, hash_table_retrieve t1 k = .ok (m.set key value k) := by
        intro k
        by_cases hk : k = key
        · rw [hk, hr1]
          simp [RefMap.set]
        · rw [retrieve_insert_other t t1 key k value hw hk h1, hm k]
          simp [RefMap.set, hk]
      obtain ⟨t2, h2, hr2⟩ := ih t1 (m.set key value) hw1 hn1 hm1
      refine ⟨t2, ?_, hr2⟩
      simp only [run_ops, h1]
      exact h2
    | remove key =>
      obtain ⟨t1, h1, hr1⟩ := retrieve_remove_self t key hw hn
      have hw1 := (remove_invariants t t1 key hw h1).1
      have hn1 := remove_keeps_noDuplicateKeys t t1 key h1 hn
      have hm1 : ∀ k, hash_table_retrieve t1 k = .ok (m.delete key k) := by
        intro k
        by_cases hk : k = key
        · rw [hk, hr1]
          simp [RefMap.delete]
        · rw [retrieve_remove_other t t1 key k hw hk h1, hm k]
          simp [RefMap.delete, hk]
      obtain ⟨t2, h2, hr2⟩ := ih t1 (m.delete key) hw1 hn1 hm1
      refine ⟨t2, ?_, hr2⟩
      simp only [run_ops, h1]
      exact h2

/-- C18: for every positive `int` capacity and every finite sequence of
`hash_table_insert` and `hash_table_remove` calls on the table of `create_hash_table`,
all calls return and `hash_table_retrieve` of every key returns what the reference map
binds to the key after the same sequence (insert sets the key, remove deletes it); the
reference does not depend on the capacity. -/
theorem table_refines_map (c : Int) (ops : List Op) (hpos : 0 < c) (hint : c ≤ INT_MAX) :
    ∃ t, run_ops (create_hash_table c) ops = .ok t ∧
      ∀ k, hash_table_retrieve t k = .ok (ref_run RefMap.empty ops k) :=
  run_ops_refines ops (create_hash_table c) RefMap.empty (create_wellShaped c hpos hint)
    (create_noDuplicateKeys c) (retrieve_create c hpos hint)

theorem table_refines_map_witness :
    ((0 : Int) < 2 ∧ (2 : Int) ≤ INT_MAX) ∧
    ∃ t, run_ops (create_hash_table 2)
        [Op.insert line_1 value_1, Op.insert line_3 value_3, Op.remove line_1,
          Op.insert line_3 value_2] = .ok t ∧
      ∀ k, hash_table_retrieve t k =
        .ok (ref_run RefMap.empty
          [Op.insert line_1 value_1, Op.insert line_3 value_3, Op.remove line_1,
            Op.insert line_3 value_2] k) :=
  ⟨⟨by decide, by decide⟩,
    table_refines_map 2
      [Op.insert line_1 value_1, Op.insert line_3 value_3, Op.remove line_1,
        Op.insert line_3 value_2] (by decide) (by decide)⟩

/-! ## Bucket splitting -/

theorem mod_double (h n : Nat) : h % (n * 2) = h % n ∨ h % (n * 2) = h % n + n := by
  rw [Nat.mod_mul]
  rcases Nat.mod_two_eq_zero_or_one (h / n) with h0 | h1
  · left
    rw [h0]
    simp
  · right
    rw [h1]
    simp

theorem hash_double (k : CString) (c : Int) (hpos : 0 < c) (h2 : c * 2 ≤ INT_MAX) :
    ∃ i, hash k c = .ok i ∧
      (hash k (c * 2) = .ok i ∨ hash k (c * 2) = .ok (i + c.toNat)) := by
  have hc : c ≤ INT_MAX := by omega
  have hn : (c * 2).toNat = c.toNat * 2 := by omega
  refine ⟨_, hash_eq k c hpos hc, ?_⟩
  rw [hash_eq k (c * 2) (by omega) h2, hn]
  rcases mod_double (hash_loop k.bytes 5381) c.toNat with h | h
  · left
    rw [h]
  · right
    rw [h]

/-- On a well-shaped table with distinct keys per chain and every pair in its bucket, the
table `hash_table_resize` returns retrieves for every key what the argument retrieves. -/
theorem resize_retrieve (t new_ht : HashTable) (hw : WellShaped t) (hn : NoDuplicateKeys t)
    (hb : BucketPlacement t) (hres : hash_table_resize t = .ok (t, new_ht)) (k : CString) :
    hash_table_retrieve new_ht k = hash_table_retrieve t k := by
  obtain ⟨h2, _, hall⟩ := resize_ok_eq t t new_ht hw hres
  have hpos2 : 0 < t.capacity * 2 := by have := hw.1; omega
  obtain ⟨t1, ht1, _, _, hr⟩ :=
    insert_all_spec (pairs_of t.storage.flatten) _ (create_wellShaped _ hpos2 h2)
  rw [← Except.ok.inj (ht1.symm.trans hall), hr k, retrieve_eq_last_value t hw hn hb k]
  cases last_value k (pairs_of t.storage.flatten) with
  | some v => rfl
  | none => exact retrieve_create _ hpos2 h2 k

/-- C19: for every key and every positive capacity `c` with `2 * c` an `int`,
`hash(k, 2 * c)` is `hash(k, c)` or `hash(k, c) + c`. Hence on a table of capacity `c`
with `c` buckets and every pair in its bucket, `hash_table_resize` returns a table of
capacity `2 * c`, and for a pair stored in bucket `i` of the argument: the bucket its
reinsertion selects is `i` or `i + c`, and `hash_table_insert` of it into any table of
capacity `2 * c` puts it at the head of that bucket; it occurs in no other bucket of the
new table; and when the chains of the argument have distinct keys it does occur in one of
the two. -/
theorem resize_splits_buckets (k : CString) (c : Int) (hpos : 0 < c)
    (h2 : c * 2 ≤ INT_MAX) :
    (∃ i, hash k c = .ok i ∧
      (hash k (2 * c) = .ok i ∨ hash k (2 * c) = .ok (i + c.toNat))) ∧
    ∀ t, t.capacity = c → (t.storage.length : Int) = c → BucketPlacement t →
      ∃ new_ht, hash_table_resize t = .ok (t, new_ht) ∧ new_ht.capacity = 2 * c ∧
        ∀ (i : Nat) (chain : List LinkedPair) (p : LinkedPair),
          t.storage[i]? = some chain → p ∈ chain →
          (hash p.key (2 * c) = .ok i ∨ hash p.key (2 * c) = .ok (i + c.toNat)) ∧
          (∀ nt : HashTable, nt.capacity = 2 * c → (nt.storage.length : Int) = 2 * c →
            ∃ j rest nt1, (j = i ∨ j = i + c.toNat) ∧
              hash_table_insert nt p.key p.value = .ok nt1 ∧
              nt1.storage[j]? = some (p :: rest)) ∧
          (∀ j chain1, new_ht.storage[j]? = some chain1 → p ∈ chain1 →
            j = i ∨ j = i + c.toNat) ∧
          (NoDuplicateKeys t → ∃ j chain1, (j = i ∨ j = i + c.toNat) ∧
            new_ht.storage[j]? = some chain1 ∧ p ∈ chain1) := by
  rw [mul_comm 2 c]
  refine ⟨hash_double k c hpos h2, ?_⟩
  intro t hcap hlen hb
  have hw : WellShaped t := ⟨by omega, by omega, by omega⟩
  obtain ⟨new_ht, hres, hall⟩ := resize_eq t hw (by rw [hcap]; exact h2)
  have hb2 : BucketPlacement new_ht :=
    resize_preserves BucketPlacement
      (fun t k v t1 hi hb => insert_keeps_bucketPlacement t t1 k v hi hb) t t new_ht hres
      (create_bucketPlacement _)
  have hcap2 : new_ht.capacity = c * 2 := by
    rw [← hcap]
    exact resize_preserves (fun x => x.capacity = t.capacity * 2)
      (fun t0 k v t1 hi hc => (insert_keeps_capacity t0 t1 k v hi).trans hc)
      t t new_ht hres rfl
  have hw2 : WellShaped new_ht := by
    have hw0 : WellShaped (create_hash_table (t.capacity * 2)) :=
      create_wellShaped _ (by rw [hcap]; omega) (by rw [hcap]; exact h2)
    obtain ⟨t1, ht1, hw1, _, _⟩ := insert_all_spec (pairs_of t.storage.flatten) _ hw0
    rw [← Except.ok.inj (ht1.symm.trans hall)]
    exact hw1
  refine ⟨new_ht, hres, hcap2, ?_⟩
  intro i chain p hc hp
  have hpi : hash p.key c = .ok i := by
    rw [← hcap]
    exact hb i chain hc p hp
  have hsplit : hash p.key (c * 2) = .ok i ∨ hash p.key (c * 2) = .ok (i + c.toNat) := by
    obtain ⟨i0, hi0, hor⟩ := hash_double p.key c hpos h2
    have hii : i0 = i := Except.ok.inj (hi0.symm.trans hpi)
    rw [hii] at hor
    exact hor
  have hloc : ∀ j chain1, new_ht.storage[j]? = some chain1 → p ∈ chain1 →
      j = i ∨ j = i + c.toNat := by
    intro j chain1 hj hpj
    have hpj2 := hb2 j chain1 hj p hpj
    rw [hcap2] at hpj2
    rcases hsplit with h | h
    · left
      exact Except.ok.inj (hpj2.symm.trans h)
    · right
      exact Except.ok.inj (hpj2.symm.trans h)
  have hins : ∀ nt : HashTable, nt.capacity = c * 2 → (nt.storage.length : Int) = c * 2 →
      ∃ j rest nt1, (j = i ∨ j = i + c.toNat) ∧
        hash_table_insert nt p.key p.value = .ok nt1 ∧
        nt1.storage[j]? = some (p :: rest) := by
    intro nt hntc hntl
    have hwn : WellShaped nt := ⟨by omega, by omega, by omega⟩
    obtain ⟨j, chainj, hhj, hcj⟩ := bucket_exists nt hwn p.key
    have hltj := lt_length_of_getElem? _ _ _ hcj
    have hj : j = i ∨ j = i + c.toNat := by
      rw [hntc] at hhj
      rcases hsplit with h | h
      · left
        exact Except.ok.inj (hhj.symm.trans h)
      · right
        exact Except.ok.inj (hhj.symm.trans h)
    exact ⟨j, erase_first p.key chainj, _, hj, insert_eq nt p.key p.value j chainj hhj hcj,
      List.getElem?_set_self hltj⟩
  refine ⟨hsplit, hins, hloc, ?_⟩
  intro hn
  have hr : hash_table_retrieve new_ht p.key = .ok (some p.value) := by
    rw [resize_retrieve t new_ht hw hn hb hres p.key]
    exact retrieve_of_mem t hn hb i chain hc p hp
  obtain ⟨j, chain1, hh1, hc1⟩ := bucket_exists new_ht hw2 p.key
  rw [retrieve_eq new_ht p.key j chain1 hh1 hc1] at hr
  have hmem : p ∈ chain1 := by
    cases hf : first_match p.key chain1 with
    | none =>
      rw [hf] at hr
      simp at hr
    | some q =>
      rw [hf] at hr
      have hqv : q.value = p.value := by simpa using hr
      have hqk : q.key = p.key := by
        have := List.find?_some hf
        simpa using this
      have hqp : q = p := by
        cases q
        cases p
        simp only at hqv hqk
        rw [hqv, hqk]
      rw [← hqp]
      exact List.mem_of_find?_eq_some hf
  exact ⟨j, chain1, hloc j chain1 hc1 hmem, hc1, hmem⟩

theorem resize_splits_buckets_witness :
    ((0 : Int) < 2 ∧ (2 : Int) * 2 ≤ INT_MAX) ∧
    (∃ i, hash line_3 2 = .ok i ∧
      (hash line_3 (2 * 2) = .ok i ∨ hash line_3 (2 * 2) = .ok (i + (2 : Int).toNat))) ∧
    ∃ new_ht, hash_table_resize demo_table = .ok (demo_table, new_ht) ∧
      new_ht.capacity = 2 * 2 ∧
      ∀ (i : Nat) (chain : List LinkedPair) (p : LinkedPair),
        demo_table.storage[i]? = some chain → p ∈ chain →
        (hash p.key (2 * 2) = .ok i ∨ hash p.key (2 * 2) = .ok (i + (2 : Int).toNat)) ∧
        (∀ nt : HashTable, nt.capacity = 2 * 2 → (nt.storage.length : Int) = 2 * 2 →
          ∃ j rest nt1, (j = i ∨ j = i + (2 : Int).toNat) ∧
            hash_table_insert nt p.key p.value = .ok nt1 ∧
            nt1.storage[j]? = some (p :: rest)) ∧
        (∀ j chain1, new_ht.storage[j]? = some chain1 → p ∈ chain1 →
          j = i ∨ j = i + (2 : Int).toNat) ∧
        (NoDuplicateKeys demo_table → ∃ j chain1, (j = i ∨ j = i + (2 : Int).toNat) ∧
          new_ht.storage[j]? = some chain1 ∧ p ∈ chain1) :=
  ⟨⟨by decide, by decide⟩,
    (resize_splits_buckets line_3 2 (by decide) (by decide)).1,
    (resize_splits_buckets line_3 2 (by decide) (by decide)).2 demo_table rfl (by decide)
      demo_table_invariants.2.2⟩

/-! ## Chain order after a sequence of insertions -/

theorem placed_chain_key_ne (c : Int) (j : Nat) (kvs : List (CString × CString))
    (key : CString) (hkey : key ∉ kvs.map (fun kv => kv.1)) :
    ∀ p ∈ placed_chain c j kvs, p.key ≠ key := by
  intro p hp hpk
  simp only [placed_chain, List.mem_map, List.mem_reverse, List.mem_filter] at hp
  obtain ⟨kv, ⟨hkv, _⟩, hmk⟩ := hp
  apply hkey
  rw [← hpk, ← hmk]
  exact List.mem_map_of_mem _ hkv

theorem placed_chain_append_same (c : Int) (j : Nat) (init : List (CString × CString))
    (kv : CString × CString) (hh : hash kv.1 c = .ok j) :
    placed_chain c j (init ++ [kv]) = create_pair kv.1 kv.2 :: placed_chain c j init := by
  have hl : lands_in c j kv.1 = true := by simp [lands_in, hh]
  simp [placed_chain, List.filter_append, List.filter_cons, hl]

theorem placed_chain_append_other (c : Int) (i j : Nat) (init : List (CString × CString))
    (kv : CString × CString) (hh : hash kv.1 c = .ok i) (hij : i ≠ j) :
    placed_chain c j (init ++ [kv]) = placed_chain c j init := by
  have hl : lands_in c j kv.1 = false := by simp [lands_in, hh, hij]
  simp [placed_chain, List.filter_append, List.filter_cons, hl]

/-- Inserting pairs with pairwise distinct keys into the table of `create_hash_table`
returns, and leaves in every bucket the pairs whose key hashes to it, last inserted
first. -/
theorem insert_all_placed (c : Int) (hpos : 0 < c) (hint : c ≤ INT_MAX)
    (kvs : List (CString × CString)) (hd : (kvs.map (fun kv => kv.1)).Nodup) :
    ∃ t1, insert_all (create_hash_table c) kvs = .ok t1 ∧ WellShaped t1 ∧
      t1.capacity = c ∧
      ∀ j chain, t1.storage[j]? = some chain → chain = placed_chain c j kvs := by
  induction kvs using List.reverseRecOn with
  | nil =>
    refine ⟨create_hash_table c, rfl, create_wellShaped c hpos hint, rfl, ?_⟩
    intro j chain hj
    have hmem := mem_storage_of_getElem? _ j chain hj
    rw [(List.mem_replicate.1 hmem).2]
    rfl
  | append_singleton init kv ih =>
    rw [List.map_append, List.nodup_append] at hd
    obtain ⟨hdi, _, hdisj⟩ := hd
    have hkv : kv.1 ∉ init.map (fun kv => kv.1) := by
      intro hmem
      exact hdisj hmem (by simp)
    obtain ⟨t0, h0, hw0, hcap0, hch0⟩ := ih hdi
    obtain ⟨i, chain, hh, hc⟩ := bucket_exists t0 hw0 kv.1
    have hlt := lt_length_of_getElem? _ _ _ hc
    have hchain := hch0 i chain hc
    have hco : hash kv.1 c = .ok i := by rw [← hcap0]; exact hh
    have hins := insert_eq t0 kv.1 kv.2 i chain hh hc
    rw [erase_first_of_absent kv.1 chain
      (by rw [hchain]; exact placed_chain_key_ne c i init kv.1 hkv)] at hins
    refine ⟨{ t0 with storage := t0.storage.set i (create_pair kv.1 kv.2 :: chain) }, ?_,
      set_wellShaped t0 hw0 i _, hcap0, ?_⟩
    · rw [insert_all_append, h0]
      simp only [insert_all, hins]
    · intro j chain1 hj
      by_cases hij : i = j
      · subst hij
        have hj2 : (t0.storage.set i (create_pair kv.1 kv.2 :: chain))[i]? = some chain1 := hj
        rw [List.getElem?_set_self hlt] at hj2
        rw [← Option.some.inj hj2, placed_chain_append_same c i init kv hco, hchain]
      · have hj2 : (t0.storage.set i (create_pair kv.1 kv.2 :: chain))[j]? = some chain1 := hj
        rw [List.getElem?_set_ne hij] at hj2
        rw [placed_chain_append_other c i j init kv hco hij]
        exact hch0 j chain1 hj2

/-- In a list without repetition, two elements of a sublist stand in the sublist in the
order they have in the list. -/
theorem sublist_pair_of_nodup {α : Type} (F G : List α) (a b : α) (hF : F.Nodup)
    (hG : G.Sublist F) (hab : [a, b].Sublist F) (ha : a ∈ G) (hb : b ∈ G) :
    [a, b].Sublist G := by
  induction hG with
  | slnil => exact absurd ha (List.not_mem_nil a)
  | cons x hG1 ih =>
    rw [List.nodup_cons] at hF
    rcases List.sublist_cons_iff.1 hab with h | ⟨r, hr, _⟩
    · exact ih hF.2 h ha hb
    · have hax : a = x := (List.cons.inj hr).1
      rw [hax] at ha
      exact absurd (hG1.subset ha) hF.1
  | cons₂ x hG1 ih =>
    rw [List.nodup_cons] at hF
    rcases List.sublist_cons_iff.1 hab with h | ⟨r, hr, hrest⟩
    · have haF := h.subset (List.mem_cons_self a [b])
      have hbF := h.subset (List.mem_cons_of_mem a (List.mem_cons_self b []))
      have hax : a ≠ x := fun e => hF.1 (e ▸ haF)
      have hbx : b ≠ x := fun e => hF.1 (e ▸ hbF)
      have ha1 := (List.mem_cons.1 ha).resolve_left hax
      have hb1 := (List.mem_cons.1 hb).resolve_left hbx
      exact (ih hF.2 h ha1 hb1).cons x
    · have hax : a = x := (List.cons.inj hr).1
      have hrb : [b] = r := (List.cons.inj hr).2
      rw [← hrb] at hrest
      have hbF : b ∈ _ := List.singleton_sublist.1 hrest
      have hbx : b ≠ x := fun e => hF.1 (e ▸ hbF)
      have hb1 := (List.mem_cons.1 hb).resolve_left hbx
      rw [hax]
      exact (List.singleton_sublist.2 hb1).cons₂ x

/-- A returning outer loop of `hash_table_resize` has found every bucket it visited. -/
theorem resize_loop_ok_bound (ht : HashTable) (n index : Nat) (new_ht new1 : HashTable)
    (h : resize_loop ht n index new_ht = .ok new1) (hn : 0 < n) :
    index + n ≤ ht.storage.length := by
  induction n generalizing index new_ht with
  | zero => omega
  | succ n ih =>
    simp only [resize_loop] at h
    cases hc : ht.storage[index]? with
    | none =>
      simp only [hc] at h
      exact Except.noConfusion h
    | some chain =>
      simp only [hc] at h
      have hlt := lt_length_of_getElem? _ _ _ hc
      cases hr : reinsert_chain new_ht chain with
      | error e =>
        simp only [hr] at h
        exact Except.noConfusion h
      | ok t2 =>
        simp only [hr] at h
        by_cases hn0 : 0 < n
        · have := ih (index + 1) t2 h hn0
          omega
        · omega

/-- What a returning `hash_table_resize` has done, on any table: the doubled capacity is
an `int`, and the pairs of the first `capacity` buckets were inserted into a fresh table
of twice the capacity. -/
theorem resize_ok_insert_all (t ta new_ht : HashTable)
    (h : hash_table_resize t = .ok (ta, new_ht)) :
    t.capacity * 2 ≤ INT_MAX ∧
      insert_all (create_hash_table (t.capacity * 2))
        (pairs_of (t.storage.take t.capacity.toNat).flatten) = .ok new_ht := by
  unfold hash_table_resize at h
  split at h
  · exact Except.noConfusion h
  · rename_i hno
    have h2 : t.capacity * 2 ≤ INT_MAX := by
      by_contra hc
      exact hno (Or.inr (lt_of_not_le hc))
    refine ⟨h2, ?_⟩
    cases hl : resize_loop t t.capacity.toNat 0 (create_hash_table (t.capacity * 2)) with
    | error e =>
      rw [hl] at h
      exact Except.noConfusion h
    | ok t2 =>
      rw [hl] at h
      have hnew : t2 = new_ht := congrArg Prod.snd (Except.ok.inj h)
      rw [← hnew]
      by_cases hn0 : 0 < t.capacity.toNat
      · have hbound := resize_loop_ok_bound t _ 0 _ t2 hl hn0
        rw [resize_loop_eq t _ 0 _ (by omega), List.drop_zero] at hl
        exact hl
      · have hz : t.capacity.toNat = 0 := by omega
        rw [hz] at hl ⊢
        exact hl

/-- C17, as stated, fails: `twin_table` has distinct keys inside each chain, its bucket 0
holds `"line_1"` in front of `"line_5"`, and `hash_table_resize` returns a table whose
bucket 1 holds both pairs with `"line_1"` still in front of `"line_5"`: the reinsertion of
the `"line_1"` pair of bucket 1 erased the copy inserted first and put one at the head. -/
theorem resize_order_counterexample :
    NoDuplicateKeys twin_table ∧
    twin_table.storage[0]? = some [⟨line_1, value_1⟩, ⟨line_5, value_2⟩] ∧
    Before ⟨line_1, value_1⟩ ⟨line_5, value_2⟩ [⟨line_1, value_1⟩, ⟨line_5, value_2⟩] ∧
    hash_table_resize twin_table =
      .ok (twin_table,
        { capacity := 4,
          storage := [[], [⟨line_1, value_1⟩, ⟨line_5, value_2⟩], [], []] }) ∧
    ¬ Before ⟨line_5, value_2⟩ ⟨line_1, value_1⟩
      [⟨line_1, value_1⟩, ⟨line_5, value_2⟩] := by
  refine ⟨?_, rfl, ?_, rfl, ?_⟩
  · intro chain hmem
    simp only [twin_table, List.mem_cons, List.mem_singleton, List.not_mem_nil,
      or_false] at hmem
    rcases hmem with h | h
    · rw [h]
      decide
    · rw [h]
      decide
  · unfold Before
    decide
  · unfold Before
    decide

/-- C17, amended: when the keys of all pairs of the table, over all buckets, are pairwise
distinct, and `a` stands before `b` in a chain of the table, then in every chain of the
table returned by `hash_table_resize` that holds both, `b` stands before `a`. -/
theorem resize_reverses_chain_order (t t_after new_ht : HashTable) (hd : DistinctKeys t)
    (hres : hash_table_resize t = .ok (t_after, new_ht)) (i : Nat)
    (chain : List LinkedPair) (a b : LinkedPair) (hc : t.storage[i]? = some chain)
    (hab : Before a b chain) (j : Nat) (chain1 : List LinkedPair)
    (hj : new_ht.storage[j]? = some chain1) (ha : a ∈ chain1) (hb : b ∈ chain1) :
    Before b a chain1 := by
  obtain ⟨h2, hall⟩ := resize_ok_insert_all t t_after new_ht hres
  have hsub : ((t.storage.take t.capacity.toNat).flatten).Sublist t.storage.flatten := by
    have hsplit := List.take_append_drop t.capacity.toNat t.storage
    have hfl : t.storage.flatten =
        (t.storage.take t.capacity.toNat).flatten ++
          (t.storage.drop t.capacity.toNat).flatten := by
      rw [← List.flatten_append, hsplit]
    rw [hfl]
    exact List.sublist_append_left _ _
  by_cases hpos : 0 < t.capacity
  · have hkeys : (pairs_of (t.storage.take t.capacity.toNat).flatten).map (fun kv => kv.1) =
        ((t.storage.take t.capacity.toNat).flatten).map (fun p => p.key) := by
      unfold pairs_of
      rw [List.map_map]
      rfl
    have hnd : ((pairs_of (t.storage.take t.capacity.toNat).flatten).map
        (fun kv => kv.1)).Nodup := by
      rw [hkeys]
      exact List.Nodup.sublist (hsub.map _) hd
    obtain ⟨t1, ht1, _, _, hch⟩ :=
      insert_all_placed (t.capacity * 2) (by omega) h2 _ hnd
    have ht : t1 = new_ht := Except.ok.inj (ht1.symm.trans hall)
    rw [ht] at hch
    have hchain1 := hch j chain1 hj
    have hin : ∀ p, p ∈ chain1 →
        p ∈ (t.storage.take t.capacity.toNat).flatten ∧
          lands_in (t.capacity * 2) j p.key = true := by
      intro p hp
      rw [hchain1] at hp
      simp only [placed_chain, pairs_of, List.mem_map, List.mem_reverse,
        List.mem_filter] at hp
      obtain ⟨kv, ⟨⟨q, hq, hqkv⟩, hl⟩, hmk⟩ := hp
      have hqp : q = p := by
        rw [← hmk, ← hqkv]
        rfl
      rw [← hqp]
      rw [← hqkv] at hl
      exact ⟨hq, hl⟩
    obtain ⟨haK, hal⟩ := hin a ha
    obtain ⟨hbK, hbl⟩ := hin b hb
    have habF : [a, b].Sublist t.storage.flatten :=
      List.Sublist.trans hab (List.sublist_flatten_of_mem (mem_storage_of_getElem? t i chain hc))
    have habK := sublist_pair_of_nodup _ _ a b (List.Nodup.of_map _ hd) hsub habF haK hbK
    have h1 := (habK.map (fun p : LinkedPair => (p.key, p.value))).filter
      (fun kv => lands_in (t.capacity * 2) j kv.1)
    have h3 := (h1.reverse).map (fun kv : CString × CString => create_pair kv.1 kv.2)
    simp only [List.map_cons, List.map_nil, List.filter_cons, hal, hbl, List.filter_nil,
      if_true, List.reverse_cons, List.reverse_nil, List.nil_append, List.cons_append] at h3
    unfold Before
    rw [hchain1]
    exact h3
  · have hz : t.capacity.toNat = 0 := by omega
    rw [hz, List.take_zero] at hall
    have hnew : create_hash_table (t.capacity * 2) = new_ht := Except.ok.inj hall
    rw [← hnew] at hj
    have hmem := mem_storage_of_getElem? _ j chain1 hj
    rw [(List.mem_replicate.1 hmem).2] at ha
    exact absurd ha (List.not_mem_nil a)

theorem resize_reverses_chain_order_witness :
    (DistinctKeys single_bucket_table ∧
      hash_table_resize single_bucket_table =
        .ok (single_bucket_table,
          { capacity := 2,
            storage := [[], [⟨line_5, value_2⟩, ⟨line_1, value_1⟩]] }) ∧
      single_bucket_table.storage[0]? = some [⟨line_1, value_1⟩, ⟨line_5, value_2⟩] ∧
      Before ⟨line_1, value_1⟩ ⟨line_5, value_2⟩
        [⟨line_1, value_1⟩, ⟨line_5, value_2⟩]) ∧
    Before ⟨line_5, value_2⟩ ⟨line_1, value_1⟩
      [⟨line_5, value_2⟩, ⟨line_1, value_1⟩] :=
  ⟨⟨by unfold DistinctKeys; decide, rfl, rfl, by unfold Before; decide⟩,
    resize_reverses_chain_order single_bucket_table single_bucket_table
      { capacity := 2, storage := [[], [⟨line_5, value_2⟩, ⟨line_1, value_1⟩]] }
      (by unfold DistinctKeys; decide) rfl 0 [⟨line_1, value_1⟩, ⟨line_5, value_2⟩]
      ⟨line_1, value_1⟩ ⟨line_5, value_2⟩ rfl (by unfold Before; decide) 1
      [⟨line_5, value_2⟩, ⟨line_1, value_1⟩] rfl (by decide) (by decide)⟩

theorem keys_nodup_of_offsets (f : CString → Except Fault Nat) (S : List (List LinkedPair))
    (off : Nat) (hn : ∀ chain ∈ S, (chain.map (fun p => p.key)).Nodup)
    (hb : ∀ i chain, S[i]? = some chain → ∀ p ∈ chain, f p.key = .ok (off + i)) :
    (S.flatten.map (fun p => p.key)).Nodup := by
  induction S generalizing off with
  | nil => exact List.nodup_nil
  | cons c rest ih =>
    rw [List.flatten_cons, List.map_append, List.nodup_append]
    refine ⟨hn c (List.mem_cons_self _ _), ?_, ?_⟩
    · apply ih (off + 1) (fun chain hc => hn chain (List.mem_cons_of_mem _ hc))
      intro i chain hi p hp
      have := hb (i + 1) chain (by simpa using hi) p hp
      rw [this]
      congr 1
      omega
    · intro key hk1 hk2
      obtain ⟨p, hp, hpk⟩ := List.mem_map.1 hk1
      obtain ⟨q, hq, hqk⟩ := List.mem_map.1 hk2
      obtain ⟨chain, hchain, hqc⟩ := List.mem_flatten.1 hq
      obtain ⟨i, hi⟩ := List.mem_iff_getElem?.1 hchain
      have h1 := hb 0 c (by simp) p hp
      have h2 := hb (i + 1) chain (by simpa using hi) q hqc
      rw [hpk] at h1
      rw [hqk, h1] at h2
      have := Except.ok.inj h2
      omega

/-- Distinct keys per chain and every pair in its bucket together give distinct keys over
the whole table; so every table built by the interface has them. -/
theorem distinctKeys_of_invariants (t : HashTable) (hn : NoDuplicateKeys t)
    (hb : BucketPlacement t) : DistinctKeys t :=
  keys_nodup_of_offsets (fun key => hash key t.capacity) t.storage 0 hn
    (fun i chain hi p hp => by rw [Nat.zero_add]; exact hb i chain hi p hp)

end HashTables
